import Mathlib

/-!
# A shallow embedding of the TBON codec (haydnv/tbon)

This file translates the decode-side scanning/buffering engine of
`src/de.rs`, the scalar element codec of `src/element.rs`, the wire
constants of `src/constants.rs` and the relevant encoder paths of
`src/en/mod.rs` into executable Lean definitions, and proves the
round-trip, chunking and error-handling properties claimed for them.

Bytes are modelled as natural numbers (`Nat`), byte buffers as
`List Nat`.  The asynchronous chunked byte source (`Read` /
`SourceStream` over a fused stream) is modelled as a list of pending
chunks together with a `term` flag that mirrors
`Fuse::is_terminated`: the flag is set only when a refill polls the
exhausted source, exactly like the `Fuse` wrapper in the source.
Floating-point values are carried as their big-endian bit patterns,
which is faithful because `f32/f64::to_be_bytes`/`from_be_bytes` are
exact bit-pattern conversions and the codec performs no arithmetic on
them.  A Rust panic (out-of-bounds index) is modelled by the
distinguished error `Err.panicIndex`.
-/

/-- The wire type-tag enumeration from `src/constants.rs` (`enum Type`),
dense from 1. -/
inductive Type' where
  | None | Bool | F32 | F64 | I8 | I16 | I32 | I64 | U8 | U16 | U32 | U64
deriving DecidableEq

/-- `Type as u8` (the `ToPrimitive` derive): `None = 1`, …, `U64 = 12`. -/
def Type'.toU8 : Type' → Nat
  | .None => 1 | .Bool => 2 | .F32 => 3 | .F64 => 4
  | .I8 => 5 | .I16 => 6 | .I32 => 7 | .I64 => 8
  | .U8 => 9 | .U16 => 10 | .U32 => 11 | .U64 => 12

/-- `Type::from_u8` (the `FromPrimitive` derive): inverse of `toU8`,
`none` on any byte outside `1..=12`. -/
def typeFromU8 (b : Nat) : Option Type' :=
  if b = 1 then some .None else if b = 2 then some .Bool
  else if b = 3 then some .F32 else if b = 4 then some .F64
  else if b = 5 then some .I8 else if b = 6 then some .I16
  else if b = 7 then some .I32 else if b = 8 then some .I64
  else if b = 9 then some .U8 else if b = 10 then some .U16
  else if b = 11 then some .U32 else if b = 12 then some .U64
  else none

/-- `Element::SIZE` for each element kind (`src/element.rs`); `None` is
not an `Element` and is given size 0 (it is never parsed as one). -/
def Type'.size : Type' → Nat
  | .None => 0 | .Bool => 1 | .I8 => 1 | .U8 => 1
  | .I16 => 2 | .U16 => 2
  | .F32 => 4 | .I32 => 4 | .U32 => 4
  | .F64 => 8 | .I64 => 8 | .U64 => 8

/-- Delimiter constants from `src/constants.rs`. -/
def ARRAY_DELIMIT : Nat := 61
def ESCAPE : Nat := 92
def LIST_BEGIN : Nat := 91
def LIST_END : Nat := 93
def MAP_BEGIN : Nat := 123
def MAP_END : Nat := 125
def STRING_DELIMIT : Nat := 34

/-- Big-endian byte representation of width `n` (`to_be_bytes` for a
value already reduced modulo `2^(8n)`). -/
def toBe : Nat → Nat → List Nat
  | 0, _ => []
  | n+1, v => toBe n (v / 256) ++ [v % 256]

/-- Big-endian byte interpretation (`from_be_bytes`). -/
def fromBe (l : List Nat) : Nat := l.foldl (fun a b => a * 256 + b) 0

/-- Two's-complement bit pattern of an `n`-byte signed integer
(`iN::to_be_bytes` produces `toBe n (intPat n v)`). -/
def intPat (n : Nat) (v : Int) : Nat := (v % ((2:Int) ^ (8 * n))).toNat

/-- Signed interpretation of an `n`-byte big-endian pattern
(`iN::from_be_bytes`). -/
def sInt (n : Nat) (u : Nat) : Int :=
  if 2 ^ (8 * n - 1) ≤ u then (u : Int) - 2 ^ (8 * n) else (u : Int)

/-- A typed scalar value: the value spaces of the `Element` impls in
`src/element.rs`.  Floats are carried as their IEEE-754 bit patterns. -/
inductive Scalar where
  | b (v : Bool)
  | i8 (v : Int) | i16 (v : Int) | i32 (v : Int) | i64 (v : Int)
  | u8 (v : Nat) | u16 (v : Nat) | u32 (v : Nat) | u64 (v : Nat)
  | f32 (bits : Nat) | f64 (bits : Nat)
deriving DecidableEq

/-- The wire kind of a scalar. -/
def Scalar.kind : Scalar → Type'
  | .b _ => .Bool
  | .i8 _ => .I8 | .i16 _ => .I16 | .i32 _ => .I32 | .i64 _ => .I64
  | .u8 _ => .U8 | .u16 _ => .U16 | .u32 _ => .U32 | .u64 _ => .U64
  | .f32 _ => .F32 | .f64 _ => .F64

/-- Range validity of a scalar value for its machine width. -/
def Scalar.valid : Scalar → Prop
  | .b _ => True
  | .i8 v => -(2^7) ≤ v ∧ v < 2^7
  | .i16 v => -(2^15) ≤ v ∧ v < 2^15
  | .i32 v => -(2^31) ≤ v ∧ v < 2^31
  | .i64 v => -(2^63) ≤ v ∧ v < 2^63
  | .u8 v => v < 2^8
  | .u16 v => v < 2^16
  | .u32 v => v < 2^32
  | .u64 v => v < 2^64
  | .f32 bits => bits < 2^32
  | .f64 bits => bits < 2^64

instance : DecidablePred Scalar.valid := by
  intro s; cases s <;> simp only [Scalar.valid] <;> infer_instance

/-- The fixed-width payload bytes a scalar is encoded with:
`TRUE`/`FALSE` for booleans (`src/constants.rs`), `to_be_bytes` for
everything else (`Encoder::encode_*` in `src/en/mod.rs`). -/
def Scalar.payload : Scalar → List Nat
  | .b v => [if v then 1 else 0]
  | .i8 v => toBe 1 (intPat 1 v)
  | .i16 v => toBe 2 (intPat 2 v)
  | .i32 v => toBe 4 (intPat 4 v)
  | .i64 v => toBe 8 (intPat 8 v)
  | .u8 v => toBe 1 v
  | .u16 v => toBe 2 v
  | .u32 v => toBe 4 v
  | .u64 v => toBe 8 v
  | .f32 bits => toBe 4 bits
  | .f64 bits => toBe 8 bits

/-- `Encoder::encode_type`: one tag byte followed by the fixed-width
payload (`src/en/mod.rs`, lines 199-208). -/
def encodeScalar (s : Scalar) : List Nat := s.kind.toU8 :: s.payload

/-- `Element::from_bytes` for each kind (`src/element.rs`): booleans
compare the byte against 1, integers and floats use `from_be_bytes`. -/
def interp (t : Type') (bytes : List Nat) : Scalar :=
  match t with
  | .Bool => .b (bytes.head! = 1)
  | .I8 => .i8 (sInt 1 (fromBe bytes))
  | .I16 => .i16 (sInt 2 (fromBe bytes))
  | .I32 => .i32 (sInt 4 (fromBe bytes))
  | .I64 => .i64 (sInt 8 (fromBe bytes))
  | .U8 => .u8 (fromBe bytes)
  | .U16 => .u16 (fromBe bytes)
  | .U32 => .u32 (fromBe bytes)
  | .U64 => .u64 (fromBe bytes)
  | .F32 => .f32 (fromBe bytes)
  | .F64 => .f64 (fromBe bytes)
  | .None => .u8 0

/-- Errors of the decoder, one constructor per distinct
error-construction site in `src/de.rs` (the source renders them as
strings).  `panicIndex` models a Rust out-of-bounds index panic and
`outOfFuel` is the artifact of bounding loops by an always-sufficient
fuel. -/
inductive Err where
  | unexpectedEnd
  | unexpectedDelimiter (actual expected : Nat)
  | invalidLength (got : Nat)
  | invalidType (actual expected : Type')
  | invalidTypeUnknown (expected : Type')
  | invalidValue (got : Nat)
  | invalidTypeBit (bit : Nat)
  | invalidTypeArray (actual : Type')
  | invalidTypeAnyIgnore
  | invalidUtf8
  | mapEnded
  | outOfFuel
  | panicIndex
deriving DecidableEq

/-- The decoder state: the pending-byte buffer plus the chunked byte
source (`Decoder` with a `SourceStream` in `src/de.rs`).  `term`
mirrors `Fuse::is_terminated`: set once a poll observes exhaustion. -/
structure Dec where
  buffer : List Nat
  chunks : List (List Nat)
  term : Bool
deriving DecidableEq

/-- All bytes the decoder will ever see from this state. -/
def Dec.bytes (d : Dec) : List Nat := d.buffer ++ d.chunks.flatten

/-- A decoder built on a fresh source of chunks. -/
def mkDec (cs : List (List Nat)) : Dec := ⟨[], cs, false⟩

/-- Well-formedness: the terminated flag is only ever set after the
chunk source is exhausted. -/
def WFD (d : Dec) : Prop := d.term = true → d.chunks = []

instance : DecidablePred WFD := fun d => by unfold WFD; infer_instance

/-- `Decoder::buffer`: poll the source once; append the chunk, or
observe termination (`src/de.rs`, lines 397-403). -/
def refill (d : Dec) : Dec :=
  if d.term then d else
  match d.chunks with
  | [] => ⟨d.buffer, [], true⟩
  | c :: r => ⟨d.buffer ++ c, r, false⟩

/-- Bounded iteration of `refill` (the fuel is always sufficient:
each step pops a chunk or sets `term`). -/
def fillAux : Nat → Nat → Dec → Dec
  | 0, _, d => d
  | fuel+1, k, d =>
    if k ≤ d.buffer.length ∨ d.term = true then d
    else fillAux fuel k (refill d)

/-- The ubiquitous refill loop of `src/de.rs`:
`while buffer.len() < k && !source.is_terminated() { buffer().await }`. -/
def fill (k : Nat) (d : Dec) : Dec := fillAux (d.chunks.length + 1) k d

/-- The result of a decoding operation: a value or an error, together
with the decoder state left behind (the Rust methods take `&mut self`,
so state survives errors). -/
inductive Res (α : Type) where
  | ok (a : α) (d : Dec)
  | err (e : Err) (d : Dec)
deriving DecidableEq

/-- Forget the final decoder state, keeping the observable outcome. -/
def resOf : Res α → Except Err α
  | .ok a _ => .ok a
  | .err e _ => .error e

/-- `Decoder::expect_delimiter` (`src/de.rs`, lines 494-524): refill
until non-empty; `UnexpectedEnd` if exhausted empty; consume the byte
if it matches, otherwise an unexpected-delimiter error leaving the
byte in place. -/
def expectDelim (x : Nat) (d : Dec) : Res Unit :=
  let d1 := fill 1 d
  match d1.buffer with
  | [] => .err .unexpectedEnd d1
  | b :: rest =>
    if b = x then .ok () ⟨rest, d1.chunks, d1.term⟩
    else .err (.unexpectedDelimiter b x) d1

/-- `Decoder::maybe_delimiter` (`src/de.rs`, lines 590-603): same
check, never fails, consumes only on match. -/
def maybeDelim (x : Nat) (d : Dec) : Bool × Dec :=
  let d1 := fill 1 d
  match d1.buffer with
  | [] => (false, d1)
  | b :: rest =>
    if b = x then (true, ⟨rest, d1.chunks, d1.term⟩)
    else (false, d1)

/-- `Decoder::parse_unit` (`src/de.rs`, lines 635-651): the byte is
removed before it is checked against the `None` tag. -/
def parseUnit (d : Dec) : Res Unit :=
  let d1 := fill 1 d
  match d1.buffer with
  | [] => .err .unexpectedEnd d1
  | b :: rest =>
    let d2 : Dec := ⟨rest, d1.chunks, d1.term⟩
    if b = Type'.None.toU8 then .ok () d2
    else match typeFromU8 b with
      | some t => .err (.invalidType t .None) d2
      | none => .err (.invalidTypeUnknown .None) d2

/-- `Decoder::parse_element::<N>` up to the final `N::parse`
(`src/de.rs`, lines 605-628): refill until more than `SIZE` bytes,
fail `invalid_length` otherwise; remove the tag byte, then check it;
drain `SIZE` payload bytes.  Both tag errors leave the tag consumed. -/
def parseElementBytes (t : Type') (d : Dec) : Res (List Nat) :=
  let d1 := fill (t.size + 1) d
  if d1.buffer.length ≤ t.size then .err (.invalidLength d1.buffer.length) d1
  else
    let tagB := d1.buffer.head!
    let d2 : Dec := ⟨d1.buffer.tail, d1.chunks, d1.term⟩
    if tagB = t.toU8 then
      let data := d2.buffer.take t.size
      let d3 : Dec := ⟨d2.buffer.drop t.size, d2.chunks, d2.term⟩
      if data.length = t.size then .ok data d3
      else .err (.invalidLength data.length) d3
    else match typeFromU8 tagB with
      | some t' => .err (.invalidType t' t) d2
      | none => .err (.invalidValue tagB) d2

/-- A typed scalar decode entry point (`decode_bool`, `decode_i8`, …):
`parse_element` followed by the kind's `from_bytes`. -/
def decodeScalar (t : Type') (d : Dec) : Res Scalar :=
  match parseElementBytes t d with
  | .ok data d' => .ok (interp t data) d'
  | .err e d' => .err e d'

/-- The escape-removal loop shared by `buffer_string` and
`ArrayAccess::buffer` (`src/de.rs`, lines 434-447 and 189-202): one
escape byte is removed per occurrence, the following byte is literal. -/
def unescapeAux : Bool → List Nat → List Nat
  | _, [] => []
  | true, b :: r => b :: unescapeAux false r
  | false, b :: r =>
    if b = ESCAPE then unescapeAux true r else b :: unescapeAux false r

def unescape (l : List Nat) : List Nat := unescapeAux false l

/-- The scan loop of `Decoder::buffer_string` (`src/de.rs`, lines
412-432): refill while `i` is past the buffer, break at the first
unescaped end byte, `UnexpectedEnd` if the source terminates first,
otherwise track the escape flag and advance.  Returns the break index
together with the state. -/
def scanStrAux (endB : Nat) : Nat → Nat → Bool → Dec → Res Nat
  | 0, _, _, d => .err .outOfFuel d
  | fuel+1, i, escaped, d =>
    let d1 := fill (i + 1) d
    if i < d1.buffer.length ∧ d1.buffer[i]! = endB ∧ escaped = false then
      .ok i d1
    else if d1.term then .err .unexpectedEnd d1
    else
      let esc := if escaped then false else d1.buffer[i]! = ESCAPE
      scanStrAux endB fuel (i + 1) esc d1

/-- `Decoder::buffer_string` (`src/de.rs`, lines 405-452): consume the
begin delimiter, scan to the first unescaped end byte, strip exactly
one escape byte per occurrence from the scanned span, consume the end
delimiter, return the unescaped content. -/
def bufferString (begin_ endB : Nat) (d : Dec) : Res (List Nat) :=
  match expectDelim begin_ d with
  | .err e d' => .err e d'
  | .ok _ d1 =>
    match scanStrAux endB (d1.bytes.length + 1) 0 false d1 with
    | .err e d2 => .err e d2
    | .ok i d2 =>
      let content := unescape (d2.buffer.take i)
      .ok content ⟨d2.buffer.drop (i + 1), d2.chunks, d2.term⟩

/-- UTF-8 validity per RFC 3629, as enforced by `String::from_utf8` in
`Decoder::parse_string`. -/
def utf8Valid : List Nat → Bool
  | [] => true
  | b :: r =>
    if b < 0x80 then utf8Valid r
    else if 0xC2 ≤ b ∧ b ≤ 0xDF then
      match r with
      | c :: r' => if 0x80 ≤ c ∧ c ≤ 0xBF then utf8Valid r' else false
      | [] => false
    else if 0xE0 ≤ b ∧ b ≤ 0xEF then
      match r with
      | c1 :: c2 :: r' =>
        let lo1 := if b = 0xE0 then 0xA0 else 0x80
        let hi1 := if b = 0xED then 0x9F else 0xBF
        if lo1 ≤ c1 ∧ c1 ≤ hi1 ∧ 0x80 ≤ c2 ∧ c2 ≤ 0xBF then utf8Valid r'
        else false
      | _ => false
    else if 0xF0 ≤ b ∧ b ≤ 0xF4 then
      match r with
      | c1 :: c2 :: c3 :: r' =>
        let lo1 := if b = 0xF0 then 0x90 else 0x80
        let hi1 := if b = 0xF4 then 0x8F else 0xBF
        if lo1 ≤ c1 ∧ c1 ≤ hi1 ∧ 0x80 ≤ c2 ∧ c2 ≤ 0xBF ∧ 0x80 ≤ c3 ∧ c3 ≤ 0xBF
        then utf8Valid r' else false
      | _ => false
    else false

/-- `Decoder::parse_string` (`src/de.rs`, lines 630-633):
`buffer_string` between string delimiters, then UTF-8 validation of
the content bytes. -/
def parseString (d : Dec) : Res (List Nat) :=
  match bufferString STRING_DELIMIT STRING_DELIMIT d with
  | .err e d' => .err e d'
  | .ok s d' => if utf8Valid s then .ok s d' else .err .invalidUtf8 d'

/-- The source's buffer-compaction bound (`CHUNK_SIZE` in `src/de.rs`). -/
def CHUNK_SIZE : Nat := 4096

/-- The scan loop of `Decoder::ignore_string` (`src/de.rs`, lines
461-487): like the `buffer_string` scan, but on the delimiter hit it
drains the scanned span immediately, and when `i` exceeds
`CHUNK_SIZE` it drains the first `i` bytes and resets `i` to 0 —
leaving the byte just processed at position 0, to be processed again
(exactly as the source does). -/
def scanIgnAux (endB : Nat) : Nat → Nat → Bool → Dec → Res Unit
  | 0, _, _, d => .err .outOfFuel d
  | fuel+1, i, escaped, d =>
    let d1 := fill (i + 1) d
    if i < d1.buffer.length ∧ d1.buffer[i]! = endB ∧ escaped = false then
      .ok () ⟨d1.buffer.drop i, d1.chunks, d1.term⟩
    else if d1.term then .err .unexpectedEnd d1
    else
      let esc := if escaped then false else d1.buffer[i]! = ESCAPE
      if CHUNK_SIZE < i then
        scanIgnAux endB fuel 0 esc ⟨d1.buffer.drop i, d1.chunks, d1.term⟩
      else scanIgnAux endB fuel (i + 1) esc d1

/-- `Decoder::ignore_string` (`src/de.rs`, lines 454-492): skip one
delimited region, discarding its contents. -/
def ignoreString (begin_ endB : Nat) (d : Dec) : Res Unit :=
  match expectDelim begin_ d with
  | .err e d' => .err e d'
  | .ok _ d1 =>
    match scanIgnAux endB (2 * d1.bytes.length + 2) 0 false d1 with
    | .err e d2 => .err e d2
    | .ok _ d2 => .ok () ⟨d2.buffer.drop 1, d2.chunks, d2.term⟩

/-- `Decoder::ignore_value` (`src/de.rs`, lines 526-588): empty input
is a success; otherwise dispatch on the first byte: delimited skip for
lists, maps and strings, `parse_unit`/`parse_element` for tags,
error on an unknown tag. -/
def ignoreValue (d : Dec) : Res Unit :=
  let d1 := fill 1 d
  match d1.buffer with
  | [] => .ok () d1
  | b :: _ =>
    if b = LIST_BEGIN then ignoreString LIST_BEGIN LIST_END d1
    else if b = MAP_BEGIN then ignoreString MAP_BEGIN MAP_END d1
    else if b = STRING_DELIMIT then ignoreString STRING_DELIMIT STRING_DELIMIT d1
    else match typeFromU8 b with
      | none => .err .invalidTypeAnyIgnore d1
      | some .None => parseUnit d1
      | some t =>
        match parseElementBytes t d1 with
        | .ok _ d2 => .ok () d2
        | .err e d2 => .err e d2

/-- `Decoder::decode_ignored_any` (`src/de.rs`, lines 876-882):
`ignore_value`, then the visitor's unit. -/
def decodeIgnoredAny (d : Dec) : Res Unit := ignoreValue d

/-- Whether `decode_option` consumed a `None` tag or delegated. -/
inductive OptTag where
  | noneV | someV
deriving DecidableEq

/-- `Decoder::decode_option` (`src/de.rs`, lines 831-846): refill until
non-empty (`UnexpectedEnd` if exhausted), peek one byte; consume it
and report absence if it is the `None` tag, otherwise delegate with
nothing consumed. -/
def decodeOption (d : Dec) : Res OptTag :=
  let d1 := fill 1 d
  match d1.buffer with
  | [] => .err .unexpectedEnd d1
  | b :: rest =>
    if b = Type'.None.toU8 then .ok .noneV ⟨rest, d1.chunks, d1.term⟩
    else .ok .someV d1

/-- The scan loop of `ArrayAccess::buffer` (`src/de.rs`, lines
164-187): runs while `i < limit`; refills while `i` is past the
buffer; breaks at an unescaped array delimiter; an escape byte grows
the limit by one.  Unlike the `buffer_string` scan there is no
terminated check: when the source is exhausted with `i` past the
buffer, the source indexes `buffer[i]` out of bounds and panics. -/
def scanArrAux : Nat → Nat → Nat → Bool → Dec → Res Nat
  | 0, _, _, _, d => .err .outOfFuel d
  | fuel+1, i, limit, escaped, d =>
    if limit ≤ i then .ok i d
    else
      let d1 := fill (i + 1) d
      if i < d1.buffer.length ∧ d1.buffer[i]! = ARRAY_DELIMIT ∧ escaped = false then
        .ok i d1
      else if escaped then scanArrAux fuel (i + 1) limit false d1
      else if i < d1.buffer.length then
        if d1.buffer[i]! = ESCAPE then scanArrAux fuel (i + 1) (limit + 1) true d1
        else scanArrAux fuel (i + 1) limit false d1
      else .err .panicIndex d1

/-- The per-chunk parse loop of `ArrayAccess::buffer` (`src/de.rs`,
lines 204-209): split the unescaped span into `size`-byte groups,
`T::parse` each (an undersized final group fails `invalid_length`),
and write into the caller's buffer — writing past its capacity is an
index panic. -/
def parseGroups (t : Type') (cap : Nat) : Nat → Nat → List Nat → Except Err (List Scalar)
  | _, _, [] => .ok []
  | 0, _, _ :: _ => .error .outOfFuel
  | fuel+1, count, data =>
    let c := (data : List Nat).take t.size
    if c.length = t.size then
      if cap ≤ count then .error .panicIndex
      else match parseGroups t cap fuel (count + 1) (data.drop t.size) with
        | .ok rest => .ok (interp t c :: rest)
        | .error e => .error e
    else .error (.invalidLength c.length)

/-- `ArrayAccess::buffer` (`src/de.rs`, lines 156-228) for an output
buffer of capacity `cap`: scan up to `cap * SIZE` logical bytes (the
limit growing with escapes), unescape and parse the span, then refill
until non-empty (`UnexpectedEnd` if the source is exhausted) and
consume the end delimiter if it is next, marking the array done. -/
def arrayFill (t : Type') (cap : Nat) (done : Bool) (d : Dec) :
    Res (List Scalar × Bool) :=
  if done then .ok ([], true) d
  else
    match scanArrAux (cap * t.size + d.bytes.length + 2) 0 (cap * t.size) false d with
    | .err e d1 => .err e d1
    | .ok i d1 =>
      if i ≤ d1.buffer.length then
        let data := unescape (d1.buffer.take i)
        let d2 : Dec := ⟨d1.buffer.drop i, d1.chunks, d1.term⟩
        match parseGroups t cap (data.length + 1) 0 data with
        | .error e => .err e d2
        | .ok vals =>
          let d3 := fill 1 d2
          match d3.buffer with
          | [] => .err .unexpectedEnd d3
          | b :: rest =>
            if b = ARRAY_DELIMIT then .ok (vals, true) ⟨rest, d3.chunks, d3.term⟩
            else .ok (vals, false) d3
      else .err .panicIndex d1

/-- `ArrayAccess::new` (`src/de.rs`, lines 137-151): expect the array
delimiter, expect the element-kind tag byte, then check for an
immediately empty array.  Returns the `done` flag. -/
def arrayNew (t : Type') (d : Dec) : Res Bool :=
  match expectDelim ARRAY_DELIMIT d with
  | .err e d' => .err e d'
  | .ok _ d1 =>
    match expectDelim t.toU8 d1 with
    | .err e d' => .err e d'
    | .ok _ d2 =>
      let (done, d3) := maybeDelim ARRAY_DELIMIT d2
      .ok done d3

/-- The visitor driver for a bulk array (as in the repository's own
array test): call `ArrayAccess::buffer` with a fixed-capacity buffer
until it reports zero elements, accumulating the results. -/
def arrLoop (t : Type') (cap : Nat) : Nat → Bool → List Scalar → Dec → Res (List Scalar)
  | 0, _, _, d => .err .outOfFuel d
  | fuel+1, done, acc, d =>
    match arrayFill t cap done d with
    | .err e d' => .err e d'
    | .ok (vals, done') d' =>
      if vals.length = 0 then .ok acc d'
      else arrLoop t cap fuel done' (acc ++ vals) d'

/-- The capacity of the generic array driver's staging buffer
(mirroring the 100-element buffer of the repository's array test). -/
def DRIVER_CAP : Nat := 100

/-- A decoded TBON value: the self-described value domain produced by
`decode_any` with a generic value-building visitor.  Strings are
carried as their UTF-8 bytes. -/
inductive Value where
  | none
  | scalar (s : Scalar)
  | str (bytes : List Nat)
  | list (elems : List Value)
  | map (entries : List (Value × Value))
  | arr (t : Type') (elems : List Scalar)

/-- `SeqAccess::next_element` loop of a generic visitor (`src/de.rs`,
lines 311-329): while not done, decode one element with `sub`, then
consume a list-end delimiter if present. -/
def seqLoop (sub : Dec → Res Value) : Nat → Bool → List Value → Dec → Res (List Value)
  | 0, _, _, d => .err .outOfFuel d
  | fuel+1, done, acc, d =>
    if done then .ok acc d
    else
      match sub d with
      | .err e d' => .err e d'
      | .ok v d' =>
        let (isEnd, d'') := maybeDelim LIST_END d'
        seqLoop sub fuel isEnd (acc ++ [v]) d''

/-- `MapAccess::next_key`/`next_value` loop of a generic visitor
(`src/de.rs`, lines 254-286): while not done, decode a key, decode a
value, then consume a map-end delimiter if present. -/
def mapLoop (sub : Dec → Res Value) : Nat → Bool → List (Value × Value) → Dec →
    Res (List (Value × Value))
  | 0, _, _, d => .err .outOfFuel d
  | fuel+1, done, acc, d =>
    if done then .ok acc d
    else
      match sub d with
      | .err e d' => .err e d'
      | .ok k d' =>
        match sub d' with
        | .err e d'' => .err e d''
        | .ok v d'' =>
          let (isEnd, d3) := maybeDelim MAP_END d''
          mapLoop sub fuel isEnd (acc ++ [(k, v)]) d3

/-- `Decoder::decode_any` (`src/de.rs`, lines 657-709) driven by a
generic value-building visitor: refill until non-empty
(`UnexpectedEnd` when exhausted), then dispatch on the first byte:
bulk array (reading one more byte as the element tag — indexing
`buffer[1]` without a bounds check, a panic when the source is
exhausted with one buffered byte; `I8` and `None` have no
`decode_array_*` arm), list, map, string (with UTF-8 validation), and
otherwise a scalar or unit wire tag, or an invalid-type-bit error. -/
def decodeAnyV : Nat → Dec → Res Value
  | 0, d => .err .outOfFuel d
  | fuel+1, d =>
    let d1 := fill 1 d
    match d1.buffer with
    | [] => .err .unexpectedEnd d1
    | b :: _ =>
      if b = ARRAY_DELIMIT then
        let d2 := fill 2 d1
        if 2 ≤ d2.buffer.length then
          match typeFromU8 (d2.buffer[1]!) with
          | none => .err (.invalidTypeBit (d2.buffer[1]!)) d2
          | some t =>
            if t = .None ∨ t = .I8 then .err (.invalidTypeArray t) d2
            else
              match arrayNew t d2 with
              | .err e d3 => .err e d3
              | .ok done d3 =>
                match arrLoop t DRIVER_CAP (d3.bytes.length + 2) done [] d3 with
                | .err e d4 => .err e d4
                | .ok vals d4 => .ok (.arr t vals) d4
        else .err .panicIndex d2
      else if b = LIST_BEGIN then
        match expectDelim LIST_BEGIN d1 with
        | .err e d2 => .err e d2
        | .ok _ d2 =>
          let (done, d3) := maybeDelim LIST_END d2
          match seqLoop (decodeAnyV fuel) (d3.bytes.length + 2) done [] d3 with
          | .err e d4 => .err e d4
          | .ok vals d4 => .ok (.list vals) d4
      else if b = MAP_BEGIN then
        match expectDelim MAP_BEGIN d1 with
        | .err e d2 => .err e d2
        | .ok _ d2 =>
          let (done, d3) := maybeDelim MAP_END d2
          match mapLoop (decodeAnyV fuel) (d3.bytes.length + 2) done [] d3 with
          | .err e d4 => .err e d4
          | .ok entries d4 => .ok (.map entries) d4
      else if b = STRING_DELIMIT then
        match parseString d1 with
        | .err e d2 => .err e d2
        | .ok s d2 => .ok (.str s) d2
      else
        match typeFromU8 b with
        | none => .err (.invalidTypeBit b) d1
        | some .None =>
          match parseUnit d1 with
          | .err e d2 => .err e d2
          | .ok _ d2 => .ok .none d2
        | some t =>
          match decodeScalar t d1 with
          | .err e d2 => .err e d2
          | .ok s d2 => .ok (.scalar s) d2

/-- The decode-side `MapAccess` state (`src/de.rs`, lines 231-235):
only a completion flag — there is no pending-key tracking. -/
structure MapA where
  done : Bool
deriving DecidableEq

/-- `MapAccess::new` (`src/de.rs`, lines 237-252): expect the map-begin
delimiter, then check for an immediately empty map. -/
def mapNew (d : Dec) : Res MapA :=
  match expectDelim MAP_BEGIN d with
  | .err e d' => .err e d'
  | .ok _ d1 =>
    let (done, d2) := maybeDelim MAP_END d1
    .ok ⟨done⟩ d2

/-- `MapAccess::next_key` (`src/de.rs`, lines 257-265) with a generic
value: `none` if the map has ended, otherwise decode one value as the
key. -/
def nextKeyV (fuel : Nat) (ma : MapA) (d : Dec) : Res (Option Value × MapA) :=
  if ma.done then .ok (none, ma) d
  else
    match decodeAnyV fuel d with
    | .err e d' => .err e d'
    | .ok k d' => .ok (some k, ma) d'

/-- `MapAccess::next_value` (`src/de.rs`, lines 267-281) with a generic
value: an error only when the map has already ended; otherwise decode
one value — with no check that a key was read first — then consume a
map-end delimiter if present. -/
def nextValueV (fuel : Nat) (ma : MapA) (d : Dec) : Res (Value × MapA) :=
  if ma.done then .err .mapEnded d
  else
    match decodeAnyV fuel d with
    | .err e d' => .err e d'
    | .ok v d' =>
      let (isEnd, d'') := maybeDelim MAP_END d'
      .ok (v, ⟨isEnd⟩) d''

/-- `Encoder::escape` (`src/en/mod.rs`, lines 227-238) specialised to
string content: exactly one escape byte is inserted before every
literal begin/end/escape byte. -/
def escStr : List Nat → List Nat
  | [] => []
  | b :: r =>
    (if b = STRING_DELIMIT ∨ b = ESCAPE then [ESCAPE, b] else [b]) ++ escStr r

/-- `Encoder::encode_string_type` for `encode_str` (`src/en/mod.rs`,
lines 210-225 and 408-410): begin delimiter, escaped content, end
delimiter. -/
def encodeStrBytes (bs : List Nat) : List Nat :=
  STRING_DELIMIT :: (escStr bs ++ [STRING_DELIMIT])

/-- IEEE-754 single-precision classification on bit patterns:
exponent all ones and non-zero mantissa. -/
def isNaN32 (bits : Nat) : Prop := bits / 2 ^ 23 % 2 ^ 8 = 255 ∧ bits % 2 ^ 23 ≠ 0

/-- IEEE-754 single-precision infinity: exponent all ones, mantissa 0. -/
def isInf32 (bits : Nat) : Prop := bits / 2 ^ 23 % 2 ^ 8 = 255 ∧ bits % 2 ^ 23 = 0

/-- The sign bit of a single-precision pattern. -/
def sign32 (bits : Nat) : Nat := bits / 2 ^ 31

/-- IEEE-754 double-precision NaN on bit patterns. -/
def isNaN64 (bits : Nat) : Prop := bits / 2 ^ 52 % 2 ^ 11 = 2047 ∧ bits % 2 ^ 52 ≠ 0

/-- IEEE-754 double-precision infinity on bit patterns. -/
def isInf64 (bits : Nat) : Prop := bits / 2 ^ 52 % 2 ^ 11 = 2047 ∧ bits % 2 ^ 52 = 0

/-- The sign bit of a double-precision pattern. -/
def sign64 (bits : Nat) : Nat := bits / 2 ^ 63

/-- Split a byte list into one-byte chunks: the 1-byte-per-chunk
feeding discipline of the partial-chunk claims. -/
def split1 (payload : List Nat) : List (List Nat) := payload.map (fun b => [b])

/-- Two decoder states are aligned when they promise the same byte
stream, agree on whether termination has been observed, and are both
well-formed.  States reading the same payload under different
chunkings are aligned. -/
def RD (d d' : Dec) : Prop :=
  d.bytes = d'.bytes ∧ d.term = d'.term ∧ WFD d ∧ WFD d'

/-- Alignment of results: same outcome, aligned final states. -/
inductive RRes' {α : Type} : Res α → Res α → Prop where
  | ok (a : α) (e e' : Dec) : RD e e' → RRes' (.ok a e) (.ok a e')
  | err (x : Err) (e e' : Dec) : RD e e' → RRes' (.err x e) (.err x e')

/-- Alignment of string-scan results: the break index additionally
lies inside both buffers. -/
inductive SRel : Res Nat → Res Nat → Prop where
  | ok (j : Nat) (e e' : Dec) : RD e e' → j < e.buffer.length → j < e'.buffer.length →
      SRel (.ok j e) (.ok j e')
  | err (x : Err) (e e' : Dec) : RD e e' → SRel (.err x e) (.err x e')

/-- Alignment of array-scan results: at the exit index each side
either still holds the index in its buffer or has observed
termination. -/
inductive ARel : Res Nat → Res Nat → Prop where
  | ok (j : Nat) (e e' : Dec) : RD e e' →
      (j ≤ e.buffer.length ∨ e.term = true) →
      (j ≤ e'.buffer.length ∨ e'.term = true) →
      ARel (.ok j e) (.ok j e')
  | err (x : Err) (e e' : Dec) : RD e e' → ARel (.err x e) (.err x e')

/-! ## Basic lemmas about bytes, big-endian coding and buffers -/

theorem toBe_length (n v : Nat) : (toBe n v).length = n := by
  induction n generalizing v with
  | zero => rfl
  | succ n ih => simp [toBe, ih]

theorem fromBe_append (l : List Nat) (b : Nat) :
    fromBe (l ++ [b]) = fromBe l * 256 + b := by
  simp [fromBe, List.foldl_append]

theorem fromBe_toBe (n v : Nat) (h : v < 2 ^ (8 * n)) : fromBe (toBe n v) = v := by
  induction n generalizing v with
  | zero =>
    simp only [Nat.mul_zero, pow_zero, Nat.lt_one_iff] at h
    simp [toBe, fromBe, h]
  | succ n ih =>
    have h2 : v / 256 < 2 ^ (8 * n) := by
      have h8 : (256 : Nat) = 2 ^ 8 := by norm_num
      rw [Nat.div_lt_iff_lt_mul (by norm_num), h8, ← pow_add]
      have h9 : 8 * n + 8 = 8 * (n + 1) := by ring
      rw [h9]; exact h
    have := ih _ h2
    rw [toBe, fromBe_append, this]
    omega

theorem getBang_append (pre : List Nat) (x : Nat) (suf : List Nat) :
    (pre ++ x :: suf)[pre.length]! = x := by
  induction pre with
  | nil => simp
  | cons a l ih => simpa using ih

theorem getBang_prefix (l t : List Nat) (i : Nat) (h : i < l.length) :
    (l ++ t)[i]! = l[i]! := by
  induction l generalizing i with
  | nil => simp at h
  | cons a l ih =>
    cases i with
    | zero => simp
    | succ i => simp only [List.length_cons, Nat.succ_lt_succ_iff] at h; simpa using ih i h

theorem pref_take_eq (k : Nat) (l l' t t' : List Nat) (h : l ++ t = l' ++ t')
    (hk : k ≤ l.length) (hk' : k ≤ l'.length) :
    l.take k = l'.take k ∧ l.drop k ++ t = l'.drop k ++ t' := by
  constructor
  · have := congrArg (List.take k) h
    rwa [List.take_append_of_le_length hk, List.take_append_of_le_length hk'] at this
  · have := congrArg (List.drop k) h
    rwa [List.drop_append_of_le_length hk, List.drop_append_of_le_length hk'] at this

/-! ## The refill loop -/

theorem refill_bytes (d : Dec) : (refill d).bytes = d.bytes := by
  unfold refill
  split
  · rfl
  · split <;> simp_all [Dec.bytes]

theorem refill_WF (d : Dec) (h : WFD d) : WFD (refill d) := by
  unfold refill
  split
  · exact h
  · split
    · intro _; rfl
    · intro hq; simp at hq

theorem fillAux_bytes (fuel k : Nat) (d : Dec) : (fillAux fuel k d).bytes = d.bytes := by
  induction fuel generalizing d with
  | zero => rfl
  | succ fuel ih =>
    unfold fillAux
    split
    · rfl
    · rw [ih, refill_bytes]

theorem fillAux_WF (fuel k : Nat) (d : Dec) (h : WFD d) : WFD (fillAux fuel k d) := by
  induction fuel generalizing d with
  | zero => exact h
  | succ fuel ih =>
    unfold fillAux
    split
    · exact h
    · exact ih _ (refill_WF _ h)

theorem fillAux_stop (fuel k : Nat) (d : Dec)
    (h : k ≤ d.buffer.length ∨ d.term = true) : fillAux fuel k d = d := by
  cases fuel with
  | zero => rfl
  | succ fuel => unfold fillAux; rw [if_pos h]

theorem fillAux_term (fuel k : Nat) (d : Dec) (hfuel : d.chunks.length + 1 ≤ fuel) :
    (fillAux fuel k d).term = (d.term || decide (d.bytes.length < k)) := by
  induction fuel generalizing d with
  | zero => omega
  | succ fuel ih =>
    unfold fillAux
    by_cases hc : k ≤ d.buffer.length ∨ d.term = true
    · rw [if_pos hc]
      rcases hc with h | h
      · have hb : d.buffer.length ≤ d.bytes.length := by simp [Dec.bytes]
        have hnot : ¬ d.bytes.length < k := by omega
        simp [hnot]
      · simp [h]
    · rw [if_neg hc]
      push_neg at hc
      obtain ⟨h1, h2⟩ := hc
      have h2' : d.term = false := by revert h2; cases d.term <;> simp
      cases hcc : d.chunks with
      | nil =>
        have hr : refill d = ⟨d.buffer, [], true⟩ := by simp [refill, h2', hcc]
        rw [hr, fillAux_stop fuel k _ (Or.inr rfl)]
        have hlt : d.bytes.length < k := by simp [Dec.bytes, hcc]; omega
        simp [h2', hlt]
      | cons c r =>
        have hr : refill d = ⟨d.buffer ++ c, r, false⟩ := by simp [refill, h2', hcc]
        have hfr : (⟨d.buffer ++ c, r, false⟩ : Dec).chunks.length + 1 ≤ fuel := by
          simp [hcc] at hfuel ⊢; omega
        rw [hr, ih _ hfr]
        have hb : (⟨d.buffer ++ c, r, false⟩ : Dec).bytes = d.bytes := by
          simp [Dec.bytes, hcc]
        rw [hb]; simp [h2']

theorem fillAux_post (fuel k : Nat) (d : Dec) (hfuel : d.chunks.length + 1 ≤ fuel) :
    k ≤ (fillAux fuel k d).buffer.length ∨ (fillAux fuel k d).term = true := by
  induction fuel generalizing d with
  | zero => omega
  | succ fuel ih =>
    unfold fillAux
    by_cases hc : k ≤ d.buffer.length ∨ d.term = true
    · rw [if_pos hc]; exact hc
    · rw [if_neg hc]
      push_neg at hc
      obtain ⟨h1, h2⟩ := hc
      have h2' : d.term = false := by revert h2; cases d.term <;> simp
      cases hcc : d.chunks with
      | nil =>
        have hr : refill d = ⟨d.buffer, [], true⟩ := by simp [refill, h2', hcc]
        rw [hr, fillAux_stop fuel k _ (Or.inr rfl)]
        exact Or.inr rfl
      | cons c r =>
        have hr : refill d = ⟨d.buffer ++ c, r, false⟩ := by simp [refill, h2', hcc]
        have hfr : (⟨d.buffer ++ c, r, false⟩ : Dec).chunks.length + 1 ≤ fuel := by
          simp [hcc] at hfuel ⊢; omega
        rw [hr]
        exact ih _ hfr

theorem fill_bytes (k : Nat) (d : Dec) : (fill k d).bytes = d.bytes :=
  fillAux_bytes _ _ _

theorem fill_WF (k : Nat) (d : Dec) (h : WFD d) : WFD (fill k d) :=
  fillAux_WF _ _ _ h

theorem fill_term (k : Nat) (d : Dec) :
    (fill k d).term = (d.term || decide (d.bytes.length < k)) :=
  fillAux_term _ _ _ (le_refl _)

theorem fill_post (k : Nat) (d : Dec) :
    k ≤ (fill k d).buffer.length ∨ (fill k d).term = true :=
  fillAux_post _ _ _ (le_refl _)

theorem bytes_of_term (d : Dec) (h : WFD d) (ht : d.term = true) :
    d.buffer = d.bytes := by
  simp [Dec.bytes, h ht]

theorem fill_id (k : Nat) (d : Dec) (h : k ≤ d.buffer.length) : fill k d = d := by
  unfold fill fillAux
  simp [h]

theorem fill_mkDec_single (k : Nat) (c : List Nat) (hk : 0 < k) (h : k ≤ c.length) :
    fill k (mkDec [c]) = ⟨c, [], false⟩ := by
  have h1 : refill (mkDec [c]) = ⟨c, [], false⟩ := by simp [refill, mkDec]
  have h2 : (mkDec [c]).chunks.length + 1 = 2 := by simp [mkDec]
  unfold fill
  rw [h2]
  unfold fillAux
  rw [if_neg ?hneg]
  case hneg =>
    intro hor
    rcases hor with h' | h'
    · simp [mkDec] at h'; omega
    · simp [mkDec] at h'
  rw [h1]
  exact fillAux_stop _ _ _ (Or.inl h)

/-! ## Claim support: scalar decoding -/

theorem parseElementBytes_single (t : Type') (payload : List Nat)
    (hlen : payload.length = t.size) :
    parseElementBytes t (mkDec [t.toU8 :: payload]) = .ok payload ⟨[], [], false⟩ := by
  have hfill : fill (t.size + 1) (mkDec [t.toU8 :: payload]) = ⟨t.toU8 :: payload, [], false⟩ :=
    fill_mkDec_single _ _ (by omega) (by simp [hlen])
  unfold parseElementBytes
  rw [hfill]
  have hne : ¬ ((⟨t.toU8 :: payload, [], false⟩ : Dec).buffer.length ≤ t.size) := by
    simp [hlen]
  rw [if_neg hne]
  have htake : payload.take t.size = payload := List.take_of_length_le (le_of_eq hlen)
  have hdrop : payload.drop t.size = [] := List.drop_eq_nil_of_le (le_of_eq hlen)
  simp [htake, hdrop, hlen]

theorem sInt_intPat (n : Nat) (v : Int) (h1 : -(2 ^ (8 * n - 1)) ≤ v)
    (h2 : v < 2 ^ (8 * n - 1)) (hn : 0 < n) : sInt n (intPat n v) = v := by
  have hM : (2:Int) ^ (8 * n) = 2 * 2 ^ (8 * n - 1) := by
    rw [← pow_succ']
    congr 1
    omega
  have hMpos : (0:Int) < 2 ^ (8 * n - 1) := by positivity
  have hcast : ((2 ^ (8 * n - 1) : Nat) : Int) = (2:Int) ^ (8 * n - 1) := by
    push_cast
    ring
  unfold sInt intPat
  by_cases hv : 0 ≤ v
  · have hs : v % (2:Int) ^ (8 * n) = v := Int.emod_eq_of_lt hv (by rw [hM]; omega)
    rw [hs]
    have htn : (v.toNat : Int) = v := Int.toNat_of_nonneg hv
    rw [if_neg ?c1]
    · exact htn
    case c1 =>
      intro hcond
      have hle : ((2 ^ (8 * n - 1) : Nat) : Int) ≤ (v.toNat : Int) := by exact_mod_cast hcond
      rw [hcast, htn] at hle
      omega
  · push_neg at hv
    have hnn : 0 ≤ v + 2 ^ (8 * n) := by rw [hM]; omega
    have hs : v % (2:Int) ^ (8 * n) = v + 2 ^ (8 * n) := by
      calc v % (2:Int) ^ (8 * n) = (v + 2 ^ (8 * n) * 1) % 2 ^ (8 * n) := by
            rw [Int.add_mul_emod_self_left]
        _ = v + 2 ^ (8 * n) := by
            rw [mul_one]
            exact Int.emod_eq_of_lt hnn (by omega)
    rw [hs]
    have htn : (((v + 2 ^ (8 * n)).toNat : Int)) = v + 2 ^ (8 * n) :=
      Int.toNat_of_nonneg hnn
    rw [if_pos ?c2]
    · rw [htn]
      ring
    case c2 =>
      have hle : ((2 ^ (8 * n - 1) : Nat) : Int) ≤ ((v + 2 ^ (8 * n)).toNat : Int) := by
        rw [hcast, htn, hM]
        omega
      exact_mod_cast hle

theorem intPat_lt (n : Nat) (v : Int) : intPat n v < 2 ^ (8 * n) := by
  unfold intPat
  have hp : (0:Int) < 2 ^ (8 * n) := by positivity
  have h2 : v % (2:Int) ^ (8 * n) < 2 ^ (8 * n) := Int.emod_lt_of_pos _ hp
  have h0 : 0 ≤ v % (2:Int) ^ (8 * n) := Int.emod_nonneg _ (ne_of_gt hp)
  have : ((2:Nat) ^ (8 * n) : Int) = (2:Int) ^ (8 * n) := by push_cast; ring
  omega

theorem interp_payload (s : Scalar) (h : s.valid) : interp s.kind s.payload = s := by
  cases s with
  | b v => cases v <;> simp [interp, Scalar.payload, Scalar.kind]
  | u8 v => simp [interp, Scalar.payload, Scalar.kind, fromBe_toBe 1 v h]
  | u16 v => simp [interp, Scalar.payload, Scalar.kind, fromBe_toBe 2 v h]
  | u32 v => simp [interp, Scalar.payload, Scalar.kind, fromBe_toBe 4 v h]
  | u64 v => simp [interp, Scalar.payload, Scalar.kind, fromBe_toBe 8 v h]
  | f32 bits => simp [interp, Scalar.payload, Scalar.kind, fromBe_toBe 4 bits h]
  | f64 bits => simp [interp, Scalar.payload, Scalar.kind, fromBe_toBe 8 bits h]
  | i8 v =>
    simp only [interp, Scalar.payload, Scalar.kind]
    rw [fromBe_toBe _ _ (intPat_lt 1 v), sInt_intPat 1 v h.1 h.2 (by omega)]
  | i16 v =>
    simp only [interp, Scalar.payload, Scalar.kind]
    rw [fromBe_toBe _ _ (intPat_lt 2 v), sInt_intPat 2 v h.1 h.2 (by omega)]
  | i32 v =>
    simp only [interp, Scalar.payload, Scalar.kind]
    rw [fromBe_toBe _ _ (intPat_lt 4 v), sInt_intPat 4 v h.1 h.2 (by omega)]
  | i64 v =>
    simp only [interp, Scalar.payload, Scalar.kind]
    rw [fromBe_toBe _ _ (intPat_lt 8 v), sInt_intPat 8 v h.1 h.2 (by omega)]

theorem payload_length (s : Scalar) : s.payload.length = s.kind.size := by
  cases s <;> simp [Scalar.payload, Scalar.kind, Type'.size, toBe_length]

theorem decodeScalar_roundtrip (s : Scalar) (h : s.valid) :
    decodeScalar s.kind (mkDec [encodeScalar s]) = .ok s ⟨[], [], false⟩ := by
  unfold decodeScalar encodeScalar
  rw [parseElementBytes_single s.kind s.payload (payload_length s)]
  simp [interp_payload s h]

theorem toU8_inj : ∀ t t' : Type', t.toU8 = t'.toU8 → t = t' := by
  intro t t' h
  cases t <;> cases t' <;> simp_all [Type'.toU8]

theorem typeFromU8_toU8 : ∀ t : Type', typeFromU8 t.toU8 = some t := by
  intro t
  cases t <;> rfl

theorem buffer_cons_of_bytes (d : Dec) (b : Nat) (rest : List Nat)
    (hb : d.bytes = b :: rest) (hne : d.buffer ≠ []) :
    ∃ tl, d.buffer = b :: tl ∧ tl ++ d.chunks.flatten = rest := by
  cases hbuf : d.buffer with
  | nil => exact absurd hbuf hne
  | cons x xs =>
    have hx : x :: (xs ++ d.chunks.flatten) = b :: rest := by
      rw [← hb, Dec.bytes, hbuf]
      simp
    injection hx with h1 h2
    refine ⟨xs, ?_, h2⟩
    subst h1
    rfl

theorem fill1_ne_nil (d : Dec) (hWF : WFD d) (b : Nat) (rest : List Nat)
    (hb : d.bytes = b :: rest) : (fill 1 d).buffer ≠ [] := by
  rcases fill_post 1 d with h | h
  · intro hc
    rw [hc] at h
    simp at h
  · have hbb := bytes_of_term _ (fill_WF 1 d hWF) h
    rw [fill_bytes, hb] at hbb
    rw [hbb]
    simp

theorem scanStrAux_succ (endB fuel i : Nat) (escaped : Bool) (d : Dec) :
    scanStrAux endB (fuel+1) i escaped d =
      (if i < (fill (i+1) d).buffer.length ∧ (fill (i+1) d).buffer[i]! = endB ∧
          escaped = false then .ok i (fill (i+1) d)
       else if (fill (i+1) d).term then .err .unexpectedEnd (fill (i+1) d)
       else scanStrAux endB fuel (i + 1)
         (if escaped then false else (fill (i+1) d).buffer[i]! = ESCAPE)
         (fill (i+1) d)) := rfl

theorem escStr_cons_ctrl (b : Nat) (tl : List Nat) (h : b = STRING_DELIMIT ∨ b = ESCAPE) :
    escStr (b :: tl) = ESCAPE :: b :: escStr tl := by
  simp [escStr, h]

theorem escStr_cons_plain (b : Nat) (tl : List Nat)
    (h : ¬(b = STRING_DELIMIT ∨ b = ESCAPE)) :
    escStr (b :: tl) = b :: escStr tl := by
  simp [escStr, h]

theorem unescape_escStr (bs : List Nat) : unescape (escStr bs) = bs := by
  unfold unescape
  induction bs with
  | nil => rfl
  | cons b tl ih =>
    by_cases h : b = STRING_DELIMIT ∨ b = ESCAPE
    · rw [escStr_cons_ctrl b tl h]
      simp [unescapeAux, ih]
    · have hne : ¬ (b = ESCAPE) := fun hc => h (Or.inr hc)
      rw [escStr_cons_plain b tl h]
      simp [unescapeAux, hne, ih]

theorem scanStr_encoded (bs : List Nat) : ∀ (pre rest : List Nat) (fuel : Nat) (d : Dec),
    d.chunks = [] → d.term = false →
    d.buffer = pre ++ (escStr bs ++ (STRING_DELIMIT :: rest)) →
    (escStr bs).length + 1 ≤ fuel →
    scanStrAux STRING_DELIMIT fuel pre.length false d =
      .ok (pre.length + (escStr bs).length) d := by
  induction bs with
  | nil =>
    intro pre rest fuel d hch ht hbuf hfuel
    cases fuel with
    | zero => simp [escStr] at hfuel
    | succ fuel =>
      have hlen : pre.length + 1 ≤ d.buffer.length := by
        rw [hbuf]
        simp only [escStr, List.nil_append, List.length_append, List.length_cons]
        omega
      rw [scanStrAux_succ, fill_id _ _ hlen]
      have hidx : d.buffer[pre.length]! = STRING_DELIMIT := by
        rw [hbuf]
        simp only [escStr, List.nil_append]
        exact getBang_append pre STRING_DELIMIT rest
      rw [if_pos ⟨by omega, hidx, rfl⟩]
      simp [escStr]
  | cons b tl ih =>
    intro pre rest fuel d hch ht hbuf hfuel
    by_cases hb : b = STRING_DELIMIT ∨ b = ESCAPE
    · rw [escStr_cons_ctrl b tl hb] at hbuf hfuel ⊢
      cases fuel with
      | zero => simp at hfuel
      | succ fuel =>
      cases fuel with
      | zero =>
        simp only [List.length_cons] at hfuel
        omega
      | succ fuel =>
      have hlen1 : pre.length + 1 ≤ d.buffer.length := by
        rw [hbuf]
        simp only [List.length_append, List.length_cons]
        omega
      have hlen2 : pre.length + 2 ≤ d.buffer.length := by
        rw [hbuf]
        simp only [List.length_append, List.length_cons]
        omega
      have hidx1 : d.buffer[pre.length]! = ESCAPE := by
        rw [hbuf]
        exact getBang_append pre ESCAPE _
      have hidx1ne : ¬ (d.buffer[pre.length]! = STRING_DELIMIT) := by
        rw [hidx1]
        simp [ESCAPE, STRING_DELIMIT]
      rw [scanStrAux_succ, fill_id _ _ hlen1]
      rw [if_neg (fun hc => hidx1ne hc.2.1)]
      rw [if_neg (by rw [ht]; simp)]
      have hesc1 : (if false = true then false else decide (d.buffer[pre.length]! = ESCAPE))
          = true := by
        simp [hidx1]
      rw [hesc1]
      rw [scanStrAux_succ]
      have hfill2 : fill (pre.length + 1 + 1) d = d := fill_id _ _ (by omega)
      rw [hfill2]
      rw [if_neg (by intro hc; simp at hc)]
      rw [if_neg (by rw [ht]; simp)]
      have hesc2 : (if true = true then false
          else decide (d.buffer[pre.length + 1]! = ESCAPE)) = false := by
        simp
      rw [hesc2]
      have hpre' : d.buffer = (pre ++ [ESCAPE, b]) ++ (escStr tl ++ (STRING_DELIMIT :: rest)) := by
        rw [hbuf]
        simp
      have hres := ih (pre ++ [ESCAPE, b]) rest fuel d hch ht hpre' (by
        simp only [List.length_cons] at hfuel
        omega)
      have hplen : (pre ++ [ESCAPE, b]).length = pre.length + 1 + 1 := by simp
      rw [hplen] at hres
      rw [hres]
      have harith : pre.length + 1 + 1 + (escStr tl).length =
          pre.length + (ESCAPE :: b :: escStr tl).length := by
        simp only [List.length_cons]
        omega
      rw [harith]
    · rw [escStr_cons_plain b tl hb] at hbuf hfuel ⊢
      cases fuel with
      | zero => simp at hfuel
      | succ fuel =>
      have hlen1 : pre.length + 1 ≤ d.buffer.length := by
        rw [hbuf]
        simp only [List.length_append, List.length_cons]
        omega
      have hidx1 : d.buffer[pre.length]! = b := by
        rw [hbuf]
        exact getBang_append pre b _
      have hbne : ¬ (b = STRING_DELIMIT) := fun hc => hb (Or.inl hc)
      have hbne2 : ¬ (b = ESCAPE) := fun hc => hb (Or.inr hc)
      rw [scanStrAux_succ, fill_id _ _ hlen1]
      rw [if_neg (by intro hc; rw [hidx1] at hc; exact hbne hc.2.1)]
      rw [if_neg (by rw [ht]; simp)]
      have hesc1 : (if false = true then false else decide (d.buffer[pre.length]! = ESCAPE))
          = false := by
        simp [hidx1, hbne2]
      rw [hesc1]
      have hpre' : d.buffer = (pre ++ [b]) ++ (escStr tl ++ (STRING_DELIMIT :: rest)) := by
        rw [hbuf]
        simp
      have hres := ih (pre ++ [b]) rest fuel d hch ht hpre' (by
        simp only [List.length_cons] at hfuel
        omega)
      have hplen : (pre ++ [b]).length = pre.length + 1 := by simp
      rw [hplen] at hres
      rw [hres]
      have harith : pre.length + 1 + (escStr tl).length =
          pre.length + (b :: escStr tl).length := by
        simp only [List.length_cons]
        omega
      rw [harith]

theorem parseString_roundtrip (bs : List Nat) (hv : utf8Valid bs = true) :
    parseString (mkDec [encodeStrBytes bs]) = .ok bs ⟨[], [], false⟩ := by
  have hfill : fill 1 (mkDec [encodeStrBytes bs]) = ⟨encodeStrBytes bs, [], false⟩ :=
    fill_mkDec_single _ _ (by omega) (by simp [encodeStrBytes])
  have hexp : expectDelim STRING_DELIMIT (mkDec [encodeStrBytes bs]) =
      .ok () ⟨escStr bs ++ [STRING_DELIMIT], [], false⟩ := by
    unfold expectDelim
    rw [hfill]
    simp [encodeStrBytes]
  have hscan := scanStr_encoded bs [] []
    ((⟨escStr bs ++ [STRING_DELIMIT], [], false⟩ : Dec).bytes.length + 1)
    ⟨escStr bs ++ [STRING_DELIMIT], [], false⟩ rfl rfl (by simp)
    (by simp [Dec.bytes])
  simp only [List.length_nil] at hscan
  unfold parseString bufferString
  rw [hexp]
  simp only []
  rw [hscan]
  simp only []
  have htake : (escStr bs ++ [STRING_DELIMIT]).take (0 + (escStr bs).length) = escStr bs := by
    simp [List.take_left]
  have hdrop : (escStr bs ++ [STRING_DELIMIT]).drop (0 + (escStr bs).length + 1) = [] := by
    apply List.drop_eq_nil_of_le
    simp
  rw [htake, hdrop, unescape_escStr, hv]
  simp

/-! ## Claim theorems -/

/-- C1: for every scalar kind (bool, i8…i64, u8…u64, f32, f64) and
every valid value `v` of that kind, decoding the encoder's output for
`v` with the matching scalar decode entry point succeeds and returns
`v` (hence in particular at 0, max, min and −1); for floats, which the
codec transports as exact bit patterns, a NaN pattern decodes to a NaN
pattern and an infinity pattern decodes to an infinity of the same
sign. -/
theorem claim_scalar_roundtrip :
    (∀ s : Scalar, s.valid →
      decodeScalar s.kind (mkDec [encodeScalar s]) = .ok s ⟨[], [], false⟩) ∧
    (∀ bits : Nat, bits < 2 ^ 32 → ∃ bits',
      decodeScalar .F32 (mkDec [encodeScalar (.f32 bits)]) = .ok (.f32 bits') ⟨[], [], false⟩ ∧
      (isNaN32 bits → isNaN32 bits') ∧
      (isInf32 bits → isInf32 bits' ∧ sign32 bits' = sign32 bits)) ∧
    (∀ bits : Nat, bits < 2 ^ 64 → ∃ bits',
      decodeScalar .F64 (mkDec [encodeScalar (.f64 bits)]) = .ok (.f64 bits') ⟨[], [], false⟩ ∧
      (isNaN64 bits → isNaN64 bits') ∧
      (isInf64 bits → isInf64 bits' ∧ sign64 bits' = sign64 bits)) := by
  refine ⟨decodeScalar_roundtrip, ?_, ?_⟩
  · intro bits h
    exact ⟨bits, decodeScalar_roundtrip (.f32 bits) h, fun hx => hx, fun hx => ⟨hx, rfl⟩⟩
  · intro bits h
    exact ⟨bits, decodeScalar_roundtrip (.f64 bits) h, fun hx => hx, fun hx => ⟨hx, rfl⟩⟩

/-- Witness for C1 at the boundary value `i64 (−1)`. -/
theorem claim_scalar_roundtrip_witness :
    Scalar.valid (.i64 (-1)) ∧
    decodeScalar (Scalar.kind (.i64 (-1))) (mkDec [encodeScalar (.i64 (-1))]) =
      .ok (.i64 (-1)) ⟨[], [], false⟩ :=
  ⟨by decide, claim_scalar_roundtrip.1 (.i64 (-1)) (by decide)⟩

/-- C2: for every Unicode string — modelled as its UTF-8 byte
sequence `bs`, including sequences that contain the string delimiter
byte, the escape byte and multi-byte UTF-8 — decoding the encoding of
`bs` returns exactly `bs` with the whole encoding consumed: the
encoder (`escStr`) inserts exactly one escape byte before every
literal delimiter/escape byte and the decoder removes exactly one per
occurrence. -/
theorem claim_string_roundtrip (bs : List Nat) (hv : utf8Valid bs = true) :
    parseString (mkDec [encodeStrBytes bs]) = .ok bs ⟨[], [], false⟩ :=
  parseString_roundtrip bs hv

/-- Witness for C2 on a string holding a two-byte UTF-8 sequence, a
literal string delimiter and a literal escape byte. -/
theorem claim_string_roundtrip_witness :
    utf8Valid [195, 169, 34, 92] = true ∧
    parseString (mkDec [encodeStrBytes [195, 169, 34, 92]]) =
      .ok [195, 169, 34, 92] ⟨[], [], false⟩ :=
  ⟨by decide, claim_string_roundtrip [195, 169, 34, 92] (by decide)⟩

/-- C4 (code bug): on the stream `[61, 9, 1]` — the bulk `u8` array
`[1]` with its final end delimiter removed — `ArrayAccess::new`
succeeds, and `ArrayAccess::buffer` with a 2-element output buffer
indexes the decode buffer out of bounds (a Rust panic), instead of
returning `UnexpectedEnd` as the claim states; only when the output
capacity exactly matches the remaining data (capacity 1) does the
exhaustion produce `UnexpectedEnd`. -/
theorem claim_array_truncation_panic :
    arrayNew .U8 (mkDec [[61, 9, 1]]) = .ok false ⟨[1], [], false⟩ ∧
    arrayFill .U8 2 false ⟨[1], [], false⟩ = .err .panicIndex ⟨[1], [], true⟩ ∧
    arrayFill .U8 1 false ⟨[1], [], false⟩ = .err .unexpectedEnd ⟨[], [], true⟩ := by
  refine ⟨by decide, by decide, by decide⟩

/-- C5 (code bug): `decode_ignored_any` on the encoding `[91, 91, 93,
93]` of the nested list `[[]]` stops at the first unescaped list-end
byte, leaving the stray byte `93` in the buffer rather than consuming
the complete value; a following decode then fails on that byte. -/
theorem claim_ignore_nested_bug :
    decodeIgnoredAny (mkDec [[91, 91, 93, 93]]) = .ok () ⟨[93], [], false⟩ ∧
    decodeAnyV 5 ⟨[93], [], false⟩ = .err (.invalidTypeBit 93) ⟨[93], [], false⟩ := by
  constructor
  · rfl
  · rfl

/-- C6 counterexample: on the decode side of the non-empty map
`{true: false}` (wire bytes `[123, 2, 1, 2, 0, 125]`), calling
`next_value` before any `next_key` does not fail with the misuse
error: it silently decodes the pending key `true` as a value. -/
theorem claim_map_misuse_counterexample :
    mapNew (mkDec [[123, 2, 1, 2, 0, 125]]) = .ok ⟨false⟩ ⟨[2, 1, 2, 0, 125], [], false⟩ ∧
    nextValueV 9 ⟨false⟩ ⟨[2, 1, 2, 0, 125], [], false⟩ =
      .ok (.scalar (.b true), ⟨false⟩) ⟨[2, 0, 125], [], false⟩ := by
  constructor
  · rfl
  · rfl

/-- C6 amended: `next_value` fails with the misuse error exactly when
the map has already ended — before any `next_key` on an empty map, or
called again after the entry whose value consumed the map end — and
the error does not corrupt an unrelated fresh decode; on a non-empty
map, `next_value` before `next_key` silently decodes the pending key
as a value instead of failing. -/
theorem claim_map_misuse_amended :
    (∀ (fuel : Nat) (d : Dec), nextValueV fuel ⟨true⟩ d = .err .mapEnded d) ∧
    mapNew (mkDec [[123, 125]]) = .ok ⟨true⟩ ⟨[], [], false⟩ ∧
    (mapNew (mkDec [[123, 2, 1, 2, 0, 125]]) =
        .ok ⟨false⟩ ⟨[2, 1, 2, 0, 125], [], false⟩ ∧
      nextKeyV 9 ⟨false⟩ ⟨[2, 1, 2, 0, 125], [], false⟩ =
        .ok (some (.scalar (.b true)), ⟨false⟩) ⟨[2, 0, 125], [], false⟩ ∧
      nextValueV 9 ⟨false⟩ ⟨[2, 0, 125], [], false⟩ =
        .ok (.scalar (.b false), ⟨true⟩) ⟨[], [], false⟩ ∧
      nextValueV 9 ⟨true⟩ ⟨[], [], false⟩ = .err .mapEnded ⟨[], [], false⟩) ∧
    nextValueV 9 ⟨false⟩ ⟨[2, 1, 2, 0, 125], [], false⟩ =
      .ok (.scalar (.b true), ⟨false⟩) ⟨[2, 0, 125], [], false⟩ ∧
    decodeAnyV 3 (mkDec [[2, 1]]) = .ok (.scalar (.b true)) ⟨[], [], false⟩ := by
  refine ⟨fun fuel d => rfl, rfl, ⟨rfl, rfl, rfl, rfl⟩, rfl, rfl⟩

/-- C7 counterexample: decoding a boolean whose payload byte is 2
does not fail with an invalid-value error — `bool::from_bytes` in
`src/element.rs` silently maps it to `false`. -/
theorem claim_bool_validation_counterexample :
    decodeScalar .Bool (mkDec [[2, 2]]) = .ok (.b false) ⟨[], [], false⟩ := by
  rfl

/-- C7 amended: the boolean decoder maps payload byte 1 to `true` and
every other byte silently to `false`; no invalid-value error exists on
this path. -/
theorem claim_bool_decode_amended (b : Nat) :
    decodeScalar .Bool (mkDec [[2, b]]) = .ok (.b (decide (b = 1))) ⟨[], [], false⟩ := by
  unfold decodeScalar
  rw [show ([[2, b]] : List (List Nat)) = [Type'.Bool.toU8 :: [b]] from rfl]
  rw [parseElementBytes_single .Bool [b] (by simp [Type'.size])]
  simp [interp]

/-- C8: from any well-formed decoder state whose remaining byte
stream starts with `b`, `decode_option` refills until the buffer is
non-empty and peeks exactly that one byte: if `b` is the `None` type
tag it consumes it and reports absence; otherwise it delegates,
consuming nothing. -/
theorem claim_decode_option (d : Dec) (b : Nat) (rest : List Nat)
    (hWF : WFD d) (hb : d.bytes = b :: rest) :
    (b = Type'.None.toU8 → ∃ d', decodeOption d = .ok .noneV d' ∧ d'.bytes = rest) ∧
    (b ≠ Type'.None.toU8 → ∃ d', decodeOption d = .ok .someV d' ∧ d'.bytes = b :: rest) := by
  have hb1 : (fill 1 d).bytes = b :: rest := by rw [fill_bytes]; exact hb
  have hne := fill1_ne_nil d hWF b rest hb
  obtain ⟨tl, htl, hrest⟩ := buffer_cons_of_bytes (fill 1 d) b rest hb1 hne
  constructor
  · intro h
    refine ⟨⟨tl, (fill 1 d).chunks, (fill 1 d).term⟩, ?_, ?_⟩
    · unfold decodeOption
      simp [htl, h]
    · simpa [Dec.bytes] using hrest
  · intro h
    refine ⟨fill 1 d, ?_, hb1⟩
    unfold decodeOption
    simp [htl, h]

/-- Witness for C8 at both branches: a `None` tag is consumed, any
other leading byte is left in place. -/
theorem claim_decode_option_witness :
    (∃ d', decodeOption (mkDec [[1, 7]]) = .ok .noneV d' ∧ d'.bytes = [7]) ∧
    (∃ d', decodeOption (mkDec [[9, 7]]) = .ok .someV d' ∧ d'.bytes = [9, 7]) :=
  ⟨(claim_decode_option (mkDec [[1, 7]]) 1 [7] (by decide) (by decide)).1 rfl,
   (claim_decode_option (mkDec [[9, 7]]) 9 [7] (by decide) (by decide)).2 (by decide)⟩

/-- C9: every typed scalar decode entry point validates the leading
tag byte after removing it from the buffer: the tag of a different
known kind fails with an invalid-type error naming both kinds, an
unknown byte fails with an invalid-value error, and in both cases the
state left behind shows the tag byte already consumed. -/
theorem claim_tag_validation :
    (∀ (t t' : Type') (payload : List Nat), t ≠ t' → t.size ≤ payload.length →
      parseElementBytes t (mkDec [t'.toU8 :: payload]) =
        .err (.invalidType t' t) ⟨payload, [], false⟩) ∧
    (∀ (t : Type') (b : Nat) (payload : List Nat), typeFromU8 b = none →
      t.size ≤ payload.length →
      parseElementBytes t (mkDec [b :: payload]) =
        .err (.invalidValue b) ⟨payload, [], false⟩) := by
  constructor
  · intro t t' payload hne hlen
    have hfill : fill (t.size + 1) (mkDec [t'.toU8 :: payload]) =
        ⟨t'.toU8 :: payload, [], false⟩ :=
      fill_mkDec_single _ _ (by omega) (by simp; omega)
    unfold parseElementBytes
    rw [hfill]
    rw [if_neg (by simp; omega)]
    simp only [List.head!_cons, List.tail_cons]
    rw [if_neg (fun hc => hne (toU8_inj t' t hc).symm)]
    rw [typeFromU8_toU8 t']
  · intro t b payload hunk hlen
    have hfill : fill (t.size + 1) (mkDec [b :: payload]) = ⟨b :: payload, [], false⟩ :=
      fill_mkDec_single _ _ (by omega) (by simp; omega)
    unfold parseElementBytes
    rw [hfill]
    rw [if_neg (by simp; omega)]
    simp only [List.head!_cons, List.tail_cons]
    rw [if_neg (fun hc => by rw [hc, typeFromU8_toU8 t] at hunk; cases hunk)]
    rw [hunk]

/-- Witness for C9: decoding `u8` against an `i8` tag and against the
unknown tag byte 77. -/
theorem claim_tag_validation_witness :
    parseElementBytes .U8 (mkDec [Type'.I8.toU8 :: [7]]) =
      .err (.invalidType .I8 .U8) ⟨[7], [], false⟩ ∧
    parseElementBytes .U8 (mkDec [(77 : Nat) :: [7]]) =
      .err (.invalidValue 77) ⟨[7], [], false⟩ :=
  ⟨claim_tag_validation.1 .U8 .I8 [7] (by decide) (by decide),
   claim_tag_validation.2 .U8 77 [7] (by decide) (by decide)⟩

/-- C10: with the byte source exhausted and the decode buffer empty,
`decode_ignored_any` succeeds with unit, consuming nothing, while
`decode_any` on the same state fails with `UnexpectedEnd` — and so
do the option, unit, scalar, string, map-open and array-open entry
points, making the ignore path the one that treats empty input as
success. -/
theorem claim_ignore_empty_success :
    decodeIgnoredAny ⟨[], [], true⟩ = .ok () ⟨[], [], true⟩ ∧
    (∀ fuel : Nat, decodeAnyV (fuel + 1) ⟨[], [], true⟩ = .err .unexpectedEnd ⟨[], [], true⟩) ∧
    decodeIgnoredAny (mkDec []) = .ok () ⟨[], [], true⟩ ∧
    (∀ fuel : Nat, decodeAnyV (fuel + 1) (mkDec []) = .err .unexpectedEnd ⟨[], [], true⟩) ∧
    decodeOption ⟨[], [], true⟩ = .err .unexpectedEnd ⟨[], [], true⟩ ∧
    parseUnit ⟨[], [], true⟩ = .err .unexpectedEnd ⟨[], [], true⟩ ∧
    (∀ t : Type', ∃ e : Err, decodeScalar t ⟨[], [], true⟩ = .err e ⟨[], [], true⟩) ∧
    parseString ⟨[], [], true⟩ = .err .unexpectedEnd ⟨[], [], true⟩ ∧
    mapNew ⟨[], [], true⟩ = .err .unexpectedEnd ⟨[], [], true⟩ ∧
    (∀ t : Type', arrayNew t ⟨[], [], true⟩ = .err .unexpectedEnd ⟨[], [], true⟩) := by
  refine ⟨rfl, fun fuel => rfl, rfl, fun fuel => rfl, rfl, rfl, ?_, rfl, rfl, ?_⟩
  · intro t
    exact ⟨.invalidLength 0, by cases t <;> rfl⟩
  · intro t
    cases t <;> rfl

/-! ## Chunking independence: alignment of decoder runs -/

theorem len_le_bytes (d : Dec) : d.buffer.length ≤ d.bytes.length := by
  simp [Dec.bytes]

theorem fill_RD (k : Nat) {d d' : Dec} (h : RD d d') : RD (fill k d) (fill k d') := by
  obtain ⟨hb, ht, hw, hw'⟩ := h
  refine ⟨?_, ?_, fill_WF _ _ hw, fill_WF _ _ hw'⟩
  · rw [fill_bytes, fill_bytes, hb]
  · rw [fill_term, fill_term, hb, ht]

theorem fill_short_buffer (k : Nat) (d : Dec) (hw : WFD d)
    (hlen : (fill k d).buffer.length < k) : (fill k d).buffer = d.bytes := by
  rcases fill_post k d with h | h
  · omega
  · rw [bytes_of_term _ (fill_WF _ _ hw) h, fill_bytes]

theorem fill_len_le_iff (k m : Nat) {d d' : Dec} (h : RD d d') (hmk : m < k) :
    ((fill k d).buffer.length ≤ m) ↔ ((fill k d').buffer.length ≤ m) := by
  obtain ⟨hb, ht, hw, hw'⟩ := h
  constructor
  · intro hle
    have h1 : (fill k d).buffer = d.bytes := fill_short_buffer k d hw (by omega)
    have h2 : (fill k d').buffer.length ≤ d'.bytes.length := by
      have := len_le_bytes (fill k d')
      rwa [fill_bytes] at this
    rw [h1] at hle
    rw [← hb] at h2
    omega
  · intro hle
    have h1 : (fill k d').buffer = d'.bytes := fill_short_buffer k d' hw' (by omega)
    have h2 : (fill k d).buffer.length ≤ d.bytes.length := by
      have := len_le_bytes (fill k d)
      rwa [fill_bytes] at this
    rw [h1] at hle
    rw [hb] at h2
    omega

theorem getBang_bytes (d : Dec) (i : Nat) (hi : i < d.buffer.length) :
    d.buffer[i]! = d.bytes[i]! := by
  rw [Dec.bytes, getBang_prefix _ _ _ hi]

theorem RD_setbuf {e e' : Dec} (h : RD e e') (tl tl' : List Nat)
    (hb : tl ++ e.chunks.flatten = tl' ++ e'.chunks.flatten) :
    RD ⟨tl, e.chunks, e.term⟩ ⟨tl', e'.chunks, e'.term⟩ :=
  ⟨hb, h.2.1, h.2.2.1, h.2.2.2⟩

theorem fill1_cases {d d' : Dec} (h : RD d d') :
    ((fill 1 d).buffer = [] ∧ (fill 1 d').buffer = []) ∨
    (∃ b tl tl', (fill 1 d).buffer = b :: tl ∧ (fill 1 d').buffer = b :: tl' ∧
      tl ++ (fill 1 d).chunks.flatten = tl' ++ (fill 1 d').chunks.flatten) := by
  obtain ⟨hb, ht, hw, hw'⟩ := h
  cases hby : d.bytes with
  | nil =>
    left
    constructor
    · have hz : (fill 1 d).buffer.length = 0 := by
        have := len_le_bytes (fill 1 d)
        rw [fill_bytes, hby] at this
        simpa using this
      exact List.length_eq_zero.mp hz
    · have hz : (fill 1 d').buffer.length = 0 := by
        have := len_le_bytes (fill 1 d')
        rw [fill_bytes, ← hb, hby] at this
        simpa using this
      exact List.length_eq_zero.mp hz
  | cons b rest =>
    right
    have hb1 : (fill 1 d).bytes = b :: rest := by rw [fill_bytes, hby]
    have hb1' : (fill 1 d').bytes = b :: rest := by rw [fill_bytes, ← hb, hby]
    obtain ⟨tl, htl, hrest⟩ := buffer_cons_of_bytes _ b rest hb1
      (fill1_ne_nil d hw b rest hby)
    obtain ⟨tl', htl', hrest'⟩ := buffer_cons_of_bytes _ b rest hb1'
      (fill1_ne_nil d' hw' b rest (by rw [← hb, hby]))
    exact ⟨b, tl, tl', htl, htl', by rw [hrest, hrest']⟩

theorem RRes'_resOf {α : Type} {r r' : Res α} (h : RRes' r r') : resOf r = resOf r' := by
  cases h <;> rfl

theorem expectDelim_RD (x : Nat) {d d' : Dec} (h : RD d d') :
    RRes' (expectDelim x d) (expectDelim x d') := by
  have hf := fill_RD 1 h
  unfold expectDelim
  rcases fill1_cases h with ⟨h1, h2⟩ | ⟨b, tl, tl', h1, h2, h3⟩
  · simp only [h1, h2]
    exact RRes'.err _ _ _ hf
  · simp only [h1, h2]
    by_cases hbx : b = x
    · rw [if_pos hbx, if_pos hbx]
      exact RRes'.ok _ _ _ (RD_setbuf hf tl tl' h3)
    · rw [if_neg hbx, if_neg hbx]
      exact RRes'.err _ _ _ hf

theorem maybeDelim_RD (x : Nat) {d d' : Dec} (h : RD d d') :
    (maybeDelim x d).1 = (maybeDelim x d').1 ∧ RD (maybeDelim x d).2 (maybeDelim x d').2 := by
  have hf := fill_RD 1 h
  unfold maybeDelim
  rcases fill1_cases h with ⟨h1, h2⟩ | ⟨b, tl, tl', h1, h2, h3⟩
  · simp only [h1, h2]
    exact ⟨by trivial, hf⟩
  · simp only [h1, h2]
    by_cases hbx : b = x
    · rw [if_pos hbx, if_pos hbx]
      exact ⟨by trivial, RD_setbuf hf tl tl' h3⟩
    · rw [if_neg hbx, if_neg hbx]
      exact ⟨by trivial, hf⟩

theorem parseUnit_RD {d d' : Dec} (h : RD d d') :
    RRes' (parseUnit d) (parseUnit d') := by
  have hf := fill_RD 1 h
  unfold parseUnit
  rcases fill1_cases h with ⟨h1, h2⟩ | ⟨b, tl, tl', h1, h2, h3⟩
  · simp only [h1, h2]
    exact RRes'.err _ _ _ hf
  · simp only [h1, h2]
    have hsb := RD_setbuf hf tl tl' h3
    by_cases hbx : b = Type'.None.toU8
    · rw [if_pos hbx, if_pos hbx]
      exact RRes'.ok _ _ _ hsb
    · rw [if_neg hbx, if_neg hbx]
      cases typeFromU8 b with
      | none => exact RRes'.err _ _ _ hsb
      | some t => exact RRes'.err _ _ _ hsb

theorem parseElementBytes_RD (t : Type') {d d' : Dec} (h : RD d d') :
    RRes' (parseElementBytes t d) (parseElementBytes t d') := by
  have hf := fill_RD (t.size + 1) h
  unfold parseElementBytes
  by_cases hshort : (fill (t.size + 1) d).buffer.length ≤ t.size
  · have hshort' : (fill (t.size + 1) d').buffer.length ≤ t.size :=
      (fill_len_le_iff (t.size + 1) t.size h (by omega)).mp hshort
    have hb1 : (fill (t.size + 1) d).buffer = d.bytes :=
      fill_short_buffer _ _ h.2.2.1 (by omega)
    have hb1' : (fill (t.size + 1) d').buffer = d'.bytes :=
      fill_short_buffer _ _ h.2.2.2 (by omega)
    rw [if_pos hshort, if_pos hshort']
    have hlen : (fill (t.size + 1) d).buffer.length =
        (fill (t.size + 1) d').buffer.length := by
      rw [hb1, hb1', h.1]
    rw [hlen]
    exact RRes'.err _ _ _ hf
  · have hshort' : ¬ (fill (t.size + 1) d').buffer.length ≤ t.size := by
      intro hc
      exact hshort ((fill_len_le_iff (t.size + 1) t.size h (by omega)).mpr hc)
    rw [if_neg hshort, if_neg hshort']
    have hne : (fill (t.size + 1) d).buffer ≠ [] := by
      intro hc
      rw [hc] at hshort
      simp at hshort
    have hne' : (fill (t.size + 1) d').buffer ≠ [] := by
      intro hc
      rw [hc] at hshort'
      simp at hshort'
    cases hby : d.bytes with
    | nil =>
      exfalso
      have := len_le_bytes (fill (t.size + 1) d)
      rw [fill_bytes, hby] at this
      simp only [List.length_nil, Nat.le_zero] at this
      omega
    | cons b rest =>
      obtain ⟨tl, htl, hrest⟩ := buffer_cons_of_bytes (fill (t.size + 1) d) b rest
        (by rw [fill_bytes, hby]) hne
      obtain ⟨tl', htl', hrest'⟩ := buffer_cons_of_bytes (fill (t.size + 1) d') b rest
        (by rw [fill_bytes, ← h.1, hby]) hne'
      have htlen : t.size ≤ tl.length := by
        rw [htl] at hshort
        simp at hshort
        omega
      have htlen' : t.size ≤ tl'.length := by
        rw [htl'] at hshort'
        simp at hshort'
        omega
      have htails : tl ++ (fill (t.size + 1) d).chunks.flatten =
          tl' ++ (fill (t.size + 1) d').chunks.flatten := by
        rw [hrest, hrest']
      obtain ⟨htake, hdrop⟩ := pref_take_eq t.size tl tl' _ _ htails htlen htlen'
      simp only [htl, htl', List.head!_cons, List.tail_cons]
      by_cases hbt : b = t.toU8
      · rw [if_pos hbt, if_pos hbt]
        rw [htake]
        by_cases hdl : (tl'.take t.size).length = t.size
        · rw [if_pos hdl, if_pos hdl]
          exact RRes'.ok _ _ _ (RD_setbuf hf (tl.drop t.size) (tl'.drop t.size) hdrop)
        · rw [if_neg hdl, if_neg hdl]
          exact RRes'.err _ _ _ (RD_setbuf hf (tl.drop t.size) (tl'.drop t.size) hdrop)
      · rw [if_neg hbt, if_neg hbt]
        have hsb := RD_setbuf hf tl tl' htails
        cases typeFromU8 b with
        | none => exact RRes'.err _ _ _ hsb
        | some t'' => exact RRes'.err _ _ _ hsb

theorem decodeScalar_RD (t : Type') {d d' : Dec} (h : RD d d') :
    RRes' (decodeScalar t d) (decodeScalar t d') := by
  unfold decodeScalar
  cases hp : parseElementBytes t d with
  | ok data e =>
    cases hp' : parseElementBytes t d' with
    | ok data' e' =>
      have := parseElementBytes_RD t h
      rw [hp, hp'] at this
      cases this with
      | ok _ _ _ hRD => exact RRes'.ok _ _ _ hRD
    | err x e' =>
      have := parseElementBytes_RD t h
      rw [hp, hp'] at this
      cases this
  | err x e =>
    cases hp' : parseElementBytes t d' with
    | ok data' e' =>
      have := parseElementBytes_RD t h
      rw [hp, hp'] at this
      cases this
    | err x' e' =>
      have := parseElementBytes_RD t h
      rw [hp, hp'] at this
      cases this with
      | err _ _ _ hRD => exact RRes'.err _ _ _ hRD

theorem scanStr_RD (endB : Nat) : ∀ (fuel i : Nat) (esc : Bool) {d d' : Dec}, RD d d' →
    SRel (scanStrAux endB fuel i esc d) (scanStrAux endB fuel i esc d') := by
  intro fuel
  induction fuel with
  | zero =>
    intro i esc d d' h
    exact SRel.err _ _ _ h
  | succ fuel ih =>
    intro i esc d d' h
    have hf := fill_RD (i + 1) h
    have hiff := fill_len_le_iff (i + 1) i h (by omega)
    rw [scanStrAux_succ, scanStrAux_succ]
    by_cases hlt : i < (fill (i + 1) d).buffer.length
    · have hlt' : i < (fill (i + 1) d').buffer.length := by
        have h1 : ¬ ((fill (i + 1) d).buffer.length ≤ i) := by omega
        have h2 : ¬ ((fill (i + 1) d').buffer.length ≤ i) := fun hc => h1 (hiff.mpr hc)
        omega
      have hidx : (fill (i + 1) d).buffer[i]! = (fill (i + 1) d').buffer[i]! := by
        rw [getBang_bytes _ _ hlt, getBang_bytes _ _ hlt', hf.1]
      by_cases hc : (fill (i + 1) d).buffer[i]! = endB ∧ esc = false
      · rw [if_pos ⟨hlt, hc.1, hc.2⟩, if_pos ⟨hlt', by rw [← hidx]; exact hc.1, hc.2⟩]
        exact SRel.ok _ _ _ hf hlt hlt'
      · rw [if_neg (show ¬(i < (fill (i + 1) d).buffer.length ∧
            (fill (i + 1) d).buffer[i]! = endB ∧ esc = false) from
            fun hcc => hc ⟨hcc.2.1, hcc.2.2⟩)]
        rw [if_neg (show ¬(i < (fill (i + 1) d').buffer.length ∧
            (fill (i + 1) d').buffer[i]! = endB ∧ esc = false) from
            fun hcc => hc ⟨by rw [hidx]; exact hcc.2.1, hcc.2.2⟩)]
        by_cases hterm : (fill (i + 1) d).term = true
        · rw [if_pos hterm, if_pos (show (fill (i + 1) d').term = true from by
            rw [← hf.2.1]; exact hterm)]
          exact SRel.err _ _ _ hf
        · rw [if_neg hterm, if_neg (show ¬ (fill (i + 1) d').term = true from by
            rw [← hf.2.1]; exact hterm)]
          rw [hidx]
          exact ih (i + 1) _ hf
    · have hlt' : ¬ i < (fill (i + 1) d').buffer.length := by
        have h1 : (fill (i + 1) d).buffer.length ≤ i := by omega
        have h2 := hiff.mp h1
        omega
      rw [if_neg (show ¬(i < (fill (i + 1) d).buffer.length ∧
          (fill (i + 1) d).buffer[i]! = endB ∧ esc = false) from fun hcc => hlt hcc.1)]
      rw [if_neg (show ¬(i < (fill (i + 1) d').buffer.length ∧
          (fill (i + 1) d').buffer[i]! = endB ∧ esc = false) from fun hcc => hlt' hcc.1)]
      have hterm : (fill (i + 1) d).term = true := by
        rcases fill_post (i + 1) d with hp | hp
        · omega
        · exact hp
      rw [if_pos hterm, if_pos (show (fill (i + 1) d').term = true from by
        rw [← hf.2.1]; exact hterm)]
      exact SRel.err _ _ _ hf

theorem SRel_ok_inv {i i' : Nat} {e e' : Dec} (h : SRel (.ok i e) (.ok i' e')) :
    i = i' ∧ RD e e' ∧ i < e.buffer.length ∧ i' < e'.buffer.length := by
  cases h
  exact ⟨rfl, by assumption, by assumption, by assumption⟩

theorem RRes'_bind {α β : Type} {r r' : Res α} (h : RRes' r r')
    (g : α → Dec → Res β)
    (hg : ∀ a e e', RD e e' → RRes' (g a e) (g a e')) :
    RRes' (match r with | .ok a e => g a e | .err x e => .err x e)
          (match r' with | .ok a e => g a e | .err x e => .err x e) := by
  cases h with
  | ok a e e' hRD => exact hg a e e' hRD
  | err x e e' hRD => exact RRes'.err _ _ _ hRD

theorem take_buffer_bytes (d : Dec) (i : Nat) (hi : i ≤ d.buffer.length) :
    d.buffer.take i = d.bytes.take i := by
  rw [Dec.bytes, List.take_append_of_le_length hi]

theorem drop_buffer_bytes (d : Dec) (i : Nat) (hi : i ≤ d.buffer.length) :
    d.buffer.drop i ++ d.chunks.flatten = d.bytes.drop i := by
  rw [Dec.bytes, List.drop_append_of_le_length hi]

theorem bufferString_RD (begin_ endB : Nat) {d d' : Dec} (h : RD d d') :
    RRes' (bufferString begin_ endB d) (bufferString begin_ endB d') := by
  unfold bufferString
  have hexp := expectDelim_RD begin_ h
  cases hE : expectDelim begin_ d with
  | err e1 s1 =>
    cases hE' : expectDelim begin_ d' with
    | err e2 s2 =>
      rw [hE, hE'] at hexp
      cases hexp with
      | err _ _ _ hRD => exact RRes'.err _ _ _ hRD
    | ok a s2 =>
      rw [hE, hE'] at hexp
      cases hexp
  | ok a d1 =>
    cases hE' : expectDelim begin_ d' with
    | err e2 s2 =>
      rw [hE, hE'] at hexp
      cases hexp
    | ok a' d1' =>
      rw [hE, hE'] at hexp
      cases hexp with
      | ok _ _ _ hRD1 =>
        have hfuel : d1.bytes.length = d1'.bytes.length := by rw [hRD1.1]
        dsimp only
        rw [hfuel]
        have hscan := scanStr_RD endB (d1'.bytes.length + 1) 0 false hRD1
        cases hS : scanStrAux endB (d1'.bytes.length + 1) 0 false d1 with
        | err e3 s3 =>
          cases hS' : scanStrAux endB (d1'.bytes.length + 1) 0 false d1' with
          | err e4 s4 =>
            rw [hS, hS'] at hscan
            cases hscan with
            | err _ _ _ hRD2 => exact RRes'.err _ _ _ hRD2
          | ok i4 s4 =>
            rw [hS, hS'] at hscan
            cases hscan
        | ok i3 s3 =>
          cases hS' : scanStrAux endB (d1'.bytes.length + 1) 0 false d1' with
          | err e4 s4 =>
            rw [hS, hS'] at hscan
            cases hscan
          | ok i4 s4 =>
            rw [hS, hS'] at hscan
            obtain ⟨hieq, hRD2, hlt, hlt'⟩ := SRel_ok_inv hscan
            subst hieq
            dsimp only
            have htake : s3.buffer.take i3 = s4.buffer.take i3 := by
              rw [take_buffer_bytes _ _ (by omega), take_buffer_bytes _ _ (by omega),
                hRD2.1]
            rw [htake]
            refine RRes'.ok _ _ _ (RD_setbuf hRD2 _ _ ?_)
            rw [drop_buffer_bytes _ _ (by omega), drop_buffer_bytes _ _ (by omega),
              hRD2.1]

theorem parseString_RD {d d' : Dec} (h : RD d d') :
    RRes' (parseString d) (parseString d') := by
  unfold parseString
  have hbs := bufferString_RD STRING_DELIMIT STRING_DELIMIT h
  cases hB : bufferString STRING_DELIMIT STRING_DELIMIT d with
  | err e1 s1 =>
    cases hB' : bufferString STRING_DELIMIT STRING_DELIMIT d' with
    | err e2 s2 =>
      rw [hB, hB'] at hbs
      cases hbs with
      | err _ _ _ hRD => exact RRes'.err _ _ _ hRD
    | ok s s2 =>
      rw [hB, hB'] at hbs
      cases hbs
  | ok s s1 =>
    cases hB' : bufferString STRING_DELIMIT STRING_DELIMIT d' with
    | err e2 s2 =>
      rw [hB, hB'] at hbs
      cases hbs
    | ok s' s2 =>
      rw [hB, hB'] at hbs
      cases hbs with
      | ok _ _ _ hRD =>
        dsimp only
        cases hu : utf8Valid s with
        | true => exact RRes'.ok _ _ _ hRD
        | false => exact RRes'.err _ _ _ hRD

theorem scanArrAux_succ (fuel i limit : Nat) (escaped : Bool) (d : Dec) :
    scanArrAux (fuel+1) i limit escaped d =
      (if limit ≤ i then .ok i d
       else if i < (fill (i+1) d).buffer.length ∧
           (fill (i+1) d).buffer[i]! = ARRAY_DELIMIT ∧ escaped = false then
         .ok i (fill (i+1) d)
       else if escaped then scanArrAux fuel (i+1) limit false (fill (i+1) d)
       else if i < (fill (i+1) d).buffer.length then
         (if (fill (i+1) d).buffer[i]! = ESCAPE then
            scanArrAux fuel (i+1) (limit+1) true (fill (i+1) d)
          else scanArrAux fuel (i+1) limit false (fill (i+1) d))
       else .err .panicIndex (fill (i+1) d)) := rfl

theorem scanArr_RD : ∀ (fuel i limit : Nat) (esc : Bool) {d d' : Dec}, RD d d' →
    (i ≤ d.buffer.length ∨ d.term = true) → (i ≤ d'.buffer.length ∨ d'.term = true) →
    ARel (scanArrAux fuel i limit esc d) (scanArrAux fuel i limit esc d') := by
  intro fuel
  induction fuel with
  | zero =>
    intro i limit esc d d' h _ _
    exact ARel.err _ _ _ h
  | succ fuel ih =>
    intro i limit esc d d' h hinv hinv'
    have hf := fill_RD (i + 1) h
    have hiff := fill_len_le_iff (i + 1) i h (by omega)
    rw [scanArrAux_succ, scanArrAux_succ]
    by_cases hli : limit ≤ i
    · rw [if_pos hli, if_pos hli]
      exact ARel.ok _ _ _ h hinv hinv'
    · rw [if_neg hli, if_neg hli]
      by_cases hlt : i < (fill (i + 1) d).buffer.length
      · have hlt' : i < (fill (i + 1) d').buffer.length := by
          have h1 : ¬ ((fill (i + 1) d).buffer.length ≤ i) := by omega
          have h2 : ¬ ((fill (i + 1) d').buffer.length ≤ i) := fun hc => h1 (hiff.mpr hc)
          omega
        have hidx : (fill (i + 1) d).buffer[i]! = (fill (i + 1) d').buffer[i]! := by
          rw [getBang_bytes _ _ hlt, getBang_bytes _ _ hlt', hf.1]
        by_cases hc : (fill (i + 1) d).buffer[i]! = ARRAY_DELIMIT ∧ esc = false
        · rw [if_pos ⟨hlt, hc.1, hc.2⟩, if_pos ⟨hlt', by rw [← hidx]; exact hc.1, hc.2⟩]
          exact ARel.ok _ _ _ hf (Or.inl (by omega)) (Or.inl (by omega))
        · rw [if_neg (show ¬(i < (fill (i + 1) d).buffer.length ∧
              (fill (i + 1) d).buffer[i]! = ARRAY_DELIMIT ∧ esc = false) from
              fun hcc => hc ⟨hcc.2.1, hcc.2.2⟩)]
          rw [if_neg (show ¬(i < (fill (i + 1) d').buffer.length ∧
              (fill (i + 1) d').buffer[i]! = ARRAY_DELIMIT ∧ esc = false) from
              fun hcc => hc ⟨by rw [hidx]; exact hcc.2.1, hcc.2.2⟩)]
          by_cases hesc : esc = true
          · rw [if_pos hesc, if_pos hesc]
            exact ih (i + 1) limit false hf (fill_post _ _) (fill_post _ _)
          · rw [if_neg hesc, if_neg hesc]
            rw [if_pos hlt, if_pos hlt']
            by_cases hescb : (fill (i + 1) d).buffer[i]! = ESCAPE
            · rw [if_pos hescb, if_pos (show (fill (i + 1) d').buffer[i]! = ESCAPE from by
                rw [← hidx]; exact hescb)]
              exact ih (i + 1) (limit + 1) true hf (fill_post _ _) (fill_post _ _)
            · rw [if_neg hescb, if_neg (show ¬ (fill (i + 1) d').buffer[i]! = ESCAPE from by
                rw [← hidx]; exact hescb)]
              exact ih (i + 1) limit false hf (fill_post _ _) (fill_post _ _)
      · have hlt' : ¬ i < (fill (i + 1) d').buffer.length := by
          have h1 : (fill (i + 1) d).buffer.length ≤ i := by omega
          have h2 := hiff.mp h1
          omega
        rw [if_neg (show ¬(i < (fill (i + 1) d).buffer.length ∧
            (fill (i + 1) d).buffer[i]! = ARRAY_DELIMIT ∧ esc = false) from
            fun hcc => hlt hcc.1)]
        rw [if_neg (show ¬(i < (fill (i + 1) d').buffer.length ∧
            (fill (i + 1) d').buffer[i]! = ARRAY_DELIMIT ∧ esc = false) from
            fun hcc => hlt' hcc.1)]
        by_cases hesc : esc = true
        · rw [if_pos hesc, if_pos hesc]
          exact ih (i + 1) limit false hf (fill_post _ _) (fill_post _ _)
        · rw [if_neg hesc, if_neg hesc]
          rw [if_neg hlt, if_neg hlt']
          exact ARel.err _ _ _ hf

theorem ARel_ok_inv {i i' : Nat} {e e' : Dec} (h : ARel (.ok i e) (.ok i' e')) :
    i = i' ∧ RD e e' ∧ (i ≤ e.buffer.length ∨ e.term = true) ∧
    (i' ≤ e'.buffer.length ∨ e'.term = true) := by
  cases h
  exact ⟨rfl, by assumption, by assumption, by assumption⟩

theorem le_len_agree {e e' : Dec} (hRD : RD e e') (i : Nat)
    (hp : i ≤ e.buffer.length ∨ e.term = true)
    (hp' : i ≤ e'.buffer.length ∨ e'.term = true) :
    (i ≤ e.buffer.length ↔ i ≤ e'.buffer.length) := by
  have hbe : e.bytes.length = e'.bytes.length := by rw [hRD.1]
  have hl := len_le_bytes e
  have hl' := len_le_bytes e'
  constructor
  · intro hle
    rcases hp' with h2 | h2
    · exact h2
    · have hb : e'.buffer = e'.bytes := bytes_of_term e' hRD.2.2.2 h2
      have h3 : e'.buffer.length = e'.bytes.length := by rw [hb]
      omega
  · intro hle
    rcases hp with h2 | h2
    · exact h2
    · have hb : e.buffer = e.bytes := bytes_of_term e hRD.2.2.1 h2
      have h3 : e.buffer.length = e.bytes.length := by rw [hb]
      omega

theorem arrayFill_RD (t : Type') (cap : Nat) (done : Bool) {d d' : Dec} (h : RD d d') :
    RRes' (arrayFill t cap done d) (arrayFill t cap done d') := by
  unfold arrayFill
  by_cases hdone : done = true
  · rw [if_pos hdone, if_pos hdone]
    exact RRes'.ok _ _ _ h
  · rw [if_neg hdone, if_neg hdone]
    have hfuel : cap * t.size + d.bytes.length + 2 = cap * t.size + d'.bytes.length + 2 := by
      rw [h.1]
    rw [hfuel]
    have hscan := scanArr_RD (cap * t.size + d'.bytes.length + 2) 0 (cap * t.size) false h
      (Or.inl (by omega)) (Or.inl (by omega))
    cases hS : scanArrAux (cap * t.size + d'.bytes.length + 2) 0 (cap * t.size) false d with
    | err e1 s1 =>
      cases hS' : scanArrAux (cap * t.size + d'.bytes.length + 2) 0 (cap * t.size) false d' with
      | err e2 s2 =>
        rw [hS, hS'] at hscan
        cases hscan with
        | err _ _ _ hRD1 => exact RRes'.err _ _ _ hRD1
      | ok i2 s2 =>
        rw [hS, hS'] at hscan
        cases hscan
    | ok i1 s1 =>
      cases hS' : scanArrAux (cap * t.size + d'.bytes.length + 2) 0 (cap * t.size) false d' with
      | err e2 s2 =>
        rw [hS, hS'] at hscan
        cases hscan
      | ok i2 s2 =>
        rw [hS, hS'] at hscan
        obtain ⟨hieq, hRD1, hp, hp'⟩ := ARel_ok_inv hscan
        subst hieq
        dsimp only
        have hiff := le_len_agree hRD1 i1 hp hp'
        by_cases hle : i1 ≤ s1.buffer.length
        · have hle' : i1 ≤ s2.buffer.length := hiff.mp hle
          rw [if_pos hle, if_pos hle']
          have htake : s1.buffer.take i1 = s2.buffer.take i1 := by
            rw [take_buffer_bytes _ _ hle, take_buffer_bytes _ _ hle', hRD1.1]
          rw [htake]
          have hRD2 : RD ⟨s1.buffer.drop i1, s1.chunks, s1.term⟩
              ⟨s2.buffer.drop i1, s2.chunks, s2.term⟩ := by
            refine RD_setbuf hRD1 _ _ ?_
            rw [drop_buffer_bytes _ _ hle, drop_buffer_bytes _ _ hle', hRD1.1]
          split <;> rename_i hP
          · exact RRes'.err _ _ _ hRD2
          · rcases fill1_cases hRD2 with ⟨h1, h2⟩ | ⟨b, tl, tl', h1, h2, h3⟩
            · simp only [h1, h2]
              exact RRes'.err _ _ _ (fill_RD 1 hRD2)
            · simp only [h1, h2]
              by_cases hbx : b = ARRAY_DELIMIT
              · rw [if_pos hbx, if_pos hbx]
                exact RRes'.ok _ _ _ (RD_setbuf (fill_RD 1 hRD2) tl tl' h3)
              · rw [if_neg hbx, if_neg hbx]
                exact RRes'.ok _ _ _ (fill_RD 1 hRD2)
        · have hle' : ¬ i1 ≤ s2.buffer.length := fun hc => hle (hiff.mpr hc)
          rw [if_neg hle, if_neg hle']
          exact RRes'.err _ _ _ hRD1

theorem RRes'_cases {α : Type} {r r' : Res α} (h : RRes' r r') :
    (∃ a e e', r = .ok a e ∧ r' = .ok a e' ∧ RD e e') ∨
    (∃ x e e', r = .err x e ∧ r' = .err x e' ∧ RD e e') := by
  cases h with
  | ok a e e' hRD => exact Or.inl ⟨a, e, e', rfl, rfl, hRD⟩
  | err x e e' hRD => exact Or.inr ⟨x, e, e', rfl, rfl, hRD⟩

theorem arrLoop_RD (t : Type') (cap : Nat) : ∀ (fuel : Nat) (done : Bool)
    (acc : List Scalar) {d d' : Dec}, RD d d' →
    RRes' (arrLoop t cap fuel done acc d) (arrLoop t cap fuel done acc d') := by
  intro fuel
  induction fuel with
  | zero =>
    intro done acc d d' h
    exact RRes'.err _ _ _ h
  | succ fuel ih =>
    intro done acc d d' h
    unfold arrLoop
    rcases RRes'_cases (arrayFill_RD t cap done h) with
      ⟨a, e, e', hq, hq', hRD⟩ | ⟨x, e, e', hq, hq', hRD⟩ <;> rw [hq, hq']
    · obtain ⟨vals, done'⟩ := a
      dsimp only
      by_cases hv : vals.length = 0
      · rw [if_pos hv, if_pos hv]
        exact RRes'.ok _ _ _ hRD
      · rw [if_neg hv, if_neg hv]
        exact ih done' (acc ++ vals) hRD
    · exact RRes'.err _ _ _ hRD

theorem arrayNew_RD (t : Type') {d d' : Dec} (h : RD d d') :
    RRes' (arrayNew t d) (arrayNew t d') := by
  unfold arrayNew
  rcases RRes'_cases (expectDelim_RD ARRAY_DELIMIT h) with
    ⟨a, e, e', hq, hq', hRD⟩ | ⟨x, e, e', hq, hq', hRD⟩ <;> rw [hq, hq']
  · dsimp only
    rcases RRes'_cases (expectDelim_RD t.toU8 hRD) with
      ⟨a2, e2, e2', hq2, hq2', hRD2⟩ | ⟨x2, e2, e2', hq2, hq2', hRD2⟩ <;> rw [hq2, hq2']
    · dsimp only
      obtain ⟨hfst, hsnd⟩ := maybeDelim_RD ARRAY_DELIMIT hRD2
      cases hm : maybeDelim ARRAY_DELIMIT e2 with
      | mk q s =>
        cases hm' : maybeDelim ARRAY_DELIMIT e2' with
        | mk q' s' =>
          rw [hm, hm'] at hfst hsnd
          dsimp only at hfst hsnd
          rw [hfst]
          exact RRes'.ok _ _ _ hsnd
    · exact RRes'.err _ _ _ hRD2
  · exact RRes'.err _ _ _ hRD

theorem seqLoop_RD (sub : Dec → Res Value)
    (hsub : ∀ {e e' : Dec}, RD e e' → RRes' (sub e) (sub e')) :
    ∀ (fuel : Nat) (done : Bool) (acc : List Value) {d d' : Dec}, RD d d' →
    RRes' (seqLoop sub fuel done acc d) (seqLoop sub fuel done acc d') := by
  intro fuel
  induction fuel with
  | zero =>
    intro done acc d d' h
    exact RRes'.err _ _ _ h
  | succ fuel ih =>
    intro done acc d d' h
    unfold seqLoop
    by_cases hdone : done = true
    · rw [if_pos hdone, if_pos hdone]
      exact RRes'.ok _ _ _ h
    · rw [if_neg hdone, if_neg hdone]
      rcases RRes'_cases (hsub h) with
        ⟨v, e, e', hq, hq', hRD⟩ | ⟨x, e, e', hq, hq', hRD⟩ <;> rw [hq, hq']
      · dsimp only
        obtain ⟨hfst, hsnd⟩ := maybeDelim_RD LIST_END hRD
        cases hm : maybeDelim LIST_END e with
        | mk q s =>
          cases hm' : maybeDelim LIST_END e' with
          | mk q' s' =>
            rw [hm, hm'] at hfst hsnd
            dsimp only at hfst hsnd
            rw [hfst]
            exact ih q' (acc ++ [v]) hsnd
      · exact RRes'.err _ _ _ hRD

theorem mapLoop_RD (sub : Dec → Res Value)
    (hsub : ∀ {e e' : Dec}, RD e e' → RRes' (sub e) (sub e')) :
    ∀ (fuel : Nat) (done : Bool) (acc : List (Value × Value)) {d d' : Dec}, RD d d' →
    RRes' (mapLoop sub fuel done acc d) (mapLoop sub fuel done acc d') := by
  intro fuel
  induction fuel with
  | zero =>
    intro done acc d d' h
    exact RRes'.err _ _ _ h
  | succ fuel ih =>
    intro done acc d d' h
    unfold mapLoop
    by_cases hdone : done = true
    · rw [if_pos hdone, if_pos hdone]
      exact RRes'.ok _ _ _ h
    · rw [if_neg hdone, if_neg hdone]
      rcases RRes'_cases (hsub h) with
        ⟨k, e, e', hq, hq', hRD⟩ | ⟨x, e, e', hq, hq', hRD⟩ <;> rw [hq, hq']
      · dsimp only
        rcases RRes'_cases (hsub hRD) with
          ⟨v, e2, e2', hq2, hq2', hRD2⟩ | ⟨x2, e2, e2', hq2, hq2', hRD2⟩ <;> rw [hq2, hq2']
        · dsimp only
          obtain ⟨hfst, hsnd⟩ := maybeDelim_RD MAP_END hRD2
          cases hm : maybeDelim MAP_END e2 with
          | mk q s =>
            cases hm' : maybeDelim MAP_END e2' with
            | mk q' s' =>
              rw [hm, hm'] at hfst hsnd
              dsimp only at hfst hsnd
              rw [hfst]
              exact ih q' (acc ++ [(k, v)]) hsnd
        · exact RRes'.err _ _ _ hRD2
      · exact RRes'.err _ _ _ hRD

theorem decodeAnyV_RD : ∀ (fuel : Nat) {d d' : Dec}, RD d d' →
    RRes' (decodeAnyV fuel d) (decodeAnyV fuel d') := by
  intro fuel
  induction fuel with
  | zero =>
    intro d d' h
    exact RRes'.err _ _ _ h
  | succ fuel ih =>
    intro d d' h
    have hf1 := fill_RD 1 h
    unfold decodeAnyV
    rcases fill1_cases h with ⟨h1, h2⟩ | ⟨b, tl, tl', h1, h2, h3⟩
    · simp only [h1, h2]
      exact RRes'.err _ _ _ hf1
    · simp only [h1, h2]
      by_cases hb61 : b = ARRAY_DELIMIT
      · rw [if_pos hb61, if_pos hb61]
        have hf2 := fill_RD 2 hf1
        have hiff := fill_len_le_iff 2 1 hf1 (by omega)
        by_cases h2le : 2 ≤ (fill 2 (fill 1 d)).buffer.length
        · have h2le' : 2 ≤ (fill 2 (fill 1 d')).buffer.length := by
            have ha : ¬ ((fill 2 (fill 1 d)).buffer.length ≤ 1) := by omega
            have hb2 : ¬ ((fill 2 (fill 1 d')).buffer.length ≤ 1) := fun hc => ha (hiff.mpr hc)
            omega
          rw [if_pos h2le, if_pos h2le']
          have hidx : (fill 2 (fill 1 d)).buffer[1]! = (fill 2 (fill 1 d')).buffer[1]! := by
            rw [getBang_bytes _ _ (by omega), getBang_bytes _ _ (by omega), hf2.1]
          rw [hidx]
          cases htb : typeFromU8 ((fill 2 (fill 1 d')).buffer[1]!) with
          | none =>
            simp only [htb]
            exact RRes'.err _ _ _ hf2
          | some t =>
            simp only [htb]
            by_cases htN : t = .None ∨ t = .I8
            · rw [if_pos htN, if_pos htN]
              exact RRes'.err _ _ _ hf2
            · rw [if_neg htN, if_neg htN]
              rcases RRes'_cases (arrayNew_RD t hf2) with
                ⟨done3, e, e', hq, hq', hRD3⟩ | ⟨x, e, e', hq, hq', hRD3⟩ <;> rw [hq, hq']
              · dsimp only
                have hbl : e.bytes.length = e'.bytes.length := by rw [hRD3.1]
                rw [hbl]
                rcases RRes'_cases (arrLoop_RD t DRIVER_CAP (e'.bytes.length + 2) done3 [] hRD3)
                  with ⟨vals, e2, e2', hq2, hq2', hRD4⟩ | ⟨x2, e2, e2', hq2, hq2', hRD4⟩ <;>
                  rw [hq2, hq2']
                · exact RRes'.ok _ _ _ hRD4
                · exact RRes'.err _ _ _ hRD4
              · exact RRes'.err _ _ _ hRD3
        · have h2le' : ¬ 2 ≤ (fill 2 (fill 1 d')).buffer.length := by
            have ha : (fill 2 (fill 1 d)).buffer.length ≤ 1 := by omega
            have hb2 := hiff.mp ha
            omega
          rw [if_neg h2le, if_neg h2le']
          exact RRes'.err _ _ _ hf2
      · rw [if_neg hb61, if_neg hb61]
        by_cases hb91 : b = LIST_BEGIN
        · rw [if_pos hb91, if_pos hb91]
          rcases RRes'_cases (expectDelim_RD LIST_BEGIN hf1) with
            ⟨a, e, e', hq, hq', hRD⟩ | ⟨x, e, e', hq, hq', hRD⟩ <;> rw [hq, hq']
          · dsimp only
            obtain ⟨hfst, hsnd⟩ := maybeDelim_RD LIST_END hRD
            cases hm : maybeDelim LIST_END e with
            | mk q s =>
              cases hm' : maybeDelim LIST_END e' with
              | mk q' s' =>
                rw [hm, hm'] at hfst hsnd
                dsimp only at hfst hsnd
                rw [hfst]
                have hbl : s.bytes.length = s'.bytes.length := by rw [hsnd.1]
                rw [hbl]
                rcases RRes'_cases (seqLoop_RD (decodeAnyV fuel) (fun hx => ih hx)
                    (s'.bytes.length + 2) q' [] hsnd) with
                  ⟨vals, e2, e2', hq2, hq2', hRD4⟩ | ⟨x2, e2, e2', hq2, hq2', hRD4⟩ <;>
                  rw [hq2, hq2']
                · exact RRes'.ok _ _ _ hRD4
                · exact RRes'.err _ _ _ hRD4
          · exact RRes'.err _ _ _ hRD
        · rw [if_neg hb91, if_neg hb91]
          by_cases hb123 : b = MAP_BEGIN
          · rw [if_pos hb123, if_pos hb123]
            rcases RRes'_cases (expectDelim_RD MAP_BEGIN hf1) with
              ⟨a, e, e', hq, hq', hRD⟩ | ⟨x, e, e', hq, hq', hRD⟩ <;> rw [hq, hq']
            · dsimp only
              obtain ⟨hfst, hsnd⟩ := maybeDelim_RD MAP_END hRD
              cases hm : maybeDelim MAP_END e with
              | mk q s =>
                cases hm' : maybeDelim MAP_END e' with
                | mk q' s' =>
                  rw [hm, hm'] at hfst hsnd
                  dsimp only at hfst hsnd
                  rw [hfst]
                  have hbl : s.bytes.length = s'.bytes.length := by rw [hsnd.1]
                  rw [hbl]
                  rcases RRes'_cases (mapLoop_RD (decodeAnyV fuel) (fun hx => ih hx)
                      (s'.bytes.length + 2) q' [] hsnd) with
                    ⟨vals, e2, e2', hq2, hq2', hRD4⟩ | ⟨x2, e2, e2', hq2, hq2', hRD4⟩ <;>
                    rw [hq2, hq2']
                  · exact RRes'.ok _ _ _ hRD4
                  · exact RRes'.err _ _ _ hRD4
            · exact RRes'.err _ _ _ hRD
          · rw [if_neg hb123, if_neg hb123]
            by_cases hb34 : b = STRING_DELIMIT
            · rw [if_pos hb34, if_pos hb34]
              rcases RRes'_cases (parseString_RD hf1) with
                ⟨s, e, e', hq, hq', hRD⟩ | ⟨x, e, e', hq, hq', hRD⟩ <;> rw [hq, hq']
              · exact RRes'.ok _ _ _ hRD
              · exact RRes'.err _ _ _ hRD
            · rw [if_neg hb34, if_neg hb34]
              cases htb : typeFromU8 b with
              | none =>
                exact RRes'.err _ _ _ hf1
              | some t =>
                cases t
                case _ =>
                  rcases RRes'_cases (parseUnit_RD hf1) with
                    ⟨a, e, e', hq, hq', hRD⟩ | ⟨x, e, e', hq, hq', hRD⟩ <;> rw [hq, hq']
                  · exact RRes'.ok _ _ _ hRD
                  · exact RRes'.err _ _ _ hRD
                all_goals
                  dsimp only
                  rcases RRes'_cases (decodeScalar_RD _ hf1) with
                    ⟨s, e, e', hq, hq', hRD⟩ | ⟨x, e, e', hq, hq', hRD⟩ <;> rw [hq, hq']
                all_goals first
                | exact RRes'.ok _ _ _ hRD
                | exact RRes'.err _ _ _ hRD

theorem flatten_split1 (p : List Nat) : (split1 p).flatten = p := by
  induction p with
  | nil => rfl
  | cons b r ih => simp [split1] at ih ⊢; exact ih

/-- C3: the decoded result (value or error alike) of a payload is
independent of how the byte stream is split into chunks: any two
chunkings of the same bytes decode identically; in particular feeding
a payload as 1-byte chunks gives the identical outcome to feeding it
as a single chunk. -/
theorem claim_chunking_independence :
    (∀ (cs cs' : List (List Nat)) (fuel : Nat), cs.flatten = cs'.flatten →
      resOf (decodeAnyV fuel (mkDec cs)) = resOf (decodeAnyV fuel (mkDec cs'))) ∧
    (∀ (payload : List Nat) (fuel : Nat),
      resOf (decodeAnyV fuel (mkDec (split1 payload))) =
        resOf (decodeAnyV fuel (mkDec [payload]))) := by
  have hmain : ∀ (cs cs' : List (List Nat)) (fuel : Nat), cs.flatten = cs'.flatten →
      resOf (decodeAnyV fuel (mkDec cs)) = resOf (decodeAnyV fuel (mkDec cs')) := by
    intro cs cs' fuel hfl
    have hRD : RD (mkDec cs) (mkDec cs') := by
      refine ⟨?_, rfl, ?_, ?_⟩
      · simp [Dec.bytes, mkDec, hfl]
      · intro hq
        simp [mkDec] at hq
      · intro hq
        simp [mkDec] at hq
    exact RRes'_resOf (decodeAnyV_RD fuel hRD)
  refine ⟨hmain, fun payload fuel => hmain _ _ fuel ?_⟩
  rw [flatten_split1]
  simp

/-- Witness for C3: the boolean payload `[2, 1]` decodes identically
fed as two 1-byte chunks and as one chunk. -/
theorem claim_chunking_independence_witness :
    ([[2], [1]] : List (List Nat)).flatten = ([[2, 1]] : List (List Nat)).flatten ∧
    resOf (decodeAnyV 3 (mkDec [[2], [1]])) = resOf (decodeAnyV 3 (mkDec [[2, 1]])) :=
  ⟨by decide, claim_chunking_independence.1 [[2], [1]] [[2, 1]] 3 (by decide)⟩
